import Mathlib

set_option maxRecDepth 8000
set_option exponentiation.threshold 1100

/- Shallow embedding of the go-lox lexical scanner.

   Sources: scanner.go (Scanner, ScanTokens, scanToken, identifier, number,
   string, match, peek, peekNext, isAlpha, isAlphaNumeric, isDigit, isAtEnd,
   advance, addToken, addTokenWithLiteral, blockComment, keywords),
   token.go (Token), lox.go (Lox.reportError as a diagnostic sink).

   Go's `[]rune` source is a `List Char` (Lean `Char` is a Unicode scalar
   value, as is a Go rune).  The scanner's loops are written with an explicit
   fuel argument so every definition is structurally recursive and reduces by
   `decide`; every call site passes fuel `source.length + 1`, which is proved
   sufficient (the fuel-exhaustion branch is unreachable). -/

/- TokenType: the closed enumeration from the repository. -/
inductive TokenType where
  | LEFT_PAREN | RIGHT_PAREN | LEFT_BRACE | RIGHT_BRACE
  | COMMA | DOT | MINUS | PLUS | SEMICOLON | SLASH | STAR
  | BANG | BANG_EQUAL | EQUAL | EQUAL_EQUAL
  | GREATER | GREATER_EQUAL | LESS | LESS_EQUAL
  | IDENTIFIER | STRING | NUMBER
  | AND | CLASS | ELSE | FALSE | FUN | FOR | IF | NIL | OR
  | PRINT | RETURN | SUPER | THIS | TRUE | VAR | WHILE
  | EOF
deriving DecidableEq, Repr

/- Token.Literal is `any` in Go and holds nil, a float64 (NUMBER) or a
   string (STRING).  The numeric value is modelled as the exact decimal
   rational; Go rounds that rational to the nearest float64.  The rounding
   itself is not modelled, but the success/failure of strconv.ParseFloat
   (its range check) is modelled exactly; see `parseFloatGo` below.  All
   numeric literals appearing in concrete statements in this file (1, 5/2, 2)
   are exactly representable as float64, where the two notions agree. -/
inductive Literal where
  | nil
  | num (value : Rat)
  | str (value : List Char)
deriving DecidableEq, Repr

/- Token from token.go. -/
structure Token where
  tokenType : TokenType
  lexeme : List Char
  literal : Literal
  line : Nat
deriving DecidableEq, Repr

/- The error categories passed to Lox.reportError by scanner.go. -/
inductive LexError where
  | unexpectedCharacter
  | unterminatedString
  | unterminatedBlockComment
  | invalidNumberLiteral
deriving DecidableEq, Repr

/- Scanner from scanner.go.  The Lox diagnostic sink is modelled by the
   `errors` field: Lox.reportError(line, err) appends `(line, err)`.
   The extra `oob` flag is instrumentation for the memory-safety claim:
   `advance` reads `s.source[s.current]` unconditionally and would panic in
   Go if `current >= len(source)`; `oob` records whether any such
   out-of-bounds read ever happened during a run. -/
structure Scanner where
  source : List Char
  tokens : List Token
  start : Nat
  current : Nat
  line : Nat
  errors : List (Nat × LexError)
  oob : Bool
deriving DecidableEq, Repr

/- isDigit from scanner.go: '0' through '9'. -/
def isDigit (c : Char) : Bool := '0' ≤ c && c ≤ '9'

/- isAlpha from scanner.go: ASCII letters and underscore only. -/
def isAlpha (c : Char) : Bool :=
  ('a' ≤ c && c ≤ 'z') || ('A' ≤ c && c ≤ 'Z') || c = '_'

/- isAlphaNumeric from scanner.go. -/
def isAlphaNumeric (c : Char) : Bool := isAlpha c || isDigit c

/- The entries of the keywords map from scanner.go. -/
def keywordPairs : List (List Char × TokenType) :=
  [("and".data, .AND), ("class".data, .CLASS), ("else".data, .ELSE),
   ("false".data, .FALSE), ("for".data, .FOR), ("fun".data, .FUN),
   ("if".data, .IF), ("nil".data, .NIL), ("or".data, .OR),
   ("print".data, .PRINT), ("return".data, .RETURN), ("super".data, .SUPER),
   ("this".data, .THIS), ("true".data, .TRUE), ("var".data, .VAR),
   ("while".data, .WHILE)]

/- keywords from scanner.go: the fixed keyword map (keys are distinct, so
   Go's map lookup is association-list lookup). -/
def keywords (text : List Char) : Option TokenType :=
  (keywordPairs.find? (fun p => p.1 == text)).map Prod.snd

/- Go subSlice expression l[a:b] for the in-bounds uses in scanner.go. -/
def subSlice (l : List Char) (a b : Nat) : List Char := (l.drop a).take (b - a)

/- Count the newline characters of a list (used only in specifications). -/
def countNL : List Char → Nat
  | [] => 0
  | c :: rest => (if c = '\n' then 1 else 0) + countNL rest

/- Decimal value of a digit string, accumulator style (most significant
   digit first), exactly as a sequence of *10+digit steps computes it. -/
def digitsToNatAux (acc : Nat) : List Char → Nat
  | [] => acc
  | c :: rest => digitsToNatAux (acc * 10 + (c.toNat - 48)) rest

def digitsToNat (l : List Char) : Nat := digitsToNatAux 0 l

/- The integer-part digits of a numeric lexeme (everything before the
   dot, or the whole text when there is no dot). -/
def digitsOfInt (text : List Char) : List Char :=
  text.takeWhile (fun c => c ≠ '.')

/- The fractional-part digits of a numeric lexeme (everything after the
   dot; empty when there is no dot). -/
def digitsOfFrac (text : List Char) : List Char :=
  (text.dropWhile (fun c => c ≠ '.')).drop 1

/- Numerator of the exact decimal value of a numeric lexeme, over the
   denominator 10 ^ (number of fractional digits). -/
def decNum (text : List Char) : Nat :=
  digitsToNat (digitsOfInt text) * 10 ^ (digitsOfFrac text).length
    + digitsToNat (digitsOfFrac text)

def decDen (text : List Char) : Nat := 10 ^ (digitsOfFrac text).length

/- Exact decimal value of a numeric lexeme of the scanner's grammar
   (digits, optionally followed by '.' and digits). -/
def decValue (text : List Char) : Rat := mkRat (decNum text) (decDen text)

/- Numerator (over denominator 1) of the smallest positive value that
   strconv.ParseFloat rounds to +Inf: the midpoint 2^1024 - 2^970 between
   the largest finite float64, (2^53 - 1) * 2^971 = 2^1024 - 2^971, and
   2^1024; round-half-to-even sends the midpoint itself up to 2^1024,
   hence to +Inf and a range error. -/
def float64OverflowNum : Nat := 2 ^ 1024 - 2 ^ 970

/- strconv.ParseFloat(text, 64), restricted to the texts the scanner's
   number routine can produce (one or more digits, optionally '.' and one
   or more digits).  On such texts ParseFloat fails (returns a non-nil
   *NumError wrapping ErrRange, together with +Inf) exactly when the exact
   decimal value is at least 2^1024 - 2^970; the guard below states that
   comparison with both sides multiplied by the positive denominator
   `decDen text`.  Otherwise ParseFloat returns the nearest float64 and a
   nil error; the returned value is modelled as the exact decimal rational
   (see `Literal`). -/
def parseFloatGo (text : List Char) : Option Rat :=
  if float64OverflowNum * decDen text ≤ decNum text then none
  else some (decValue text)

/- isAtEnd from scanner.go. -/
def Scanner.isAtEnd (s : Scanner) : Bool := decide (s.source.length ≤ s.current)

/- advance from scanner.go: reads source[current] unguarded and increments
   current.  The read is total here via getD; the `oob` flag records
   whether the read was out of bounds (a panic in Go). -/
def Scanner.advance (s : Scanner) : Char × Scanner :=
  (s.source.getD s.current (Char.ofNat 0),
   { s with current := s.current + 1, oob := s.oob || s.isAtEnd })

/- peek from scanner.go: zero rune at end of input. -/
def Scanner.peek (s : Scanner) : Char :=
  if s.isAtEnd then Char.ofNat 0 else s.source.getD s.current (Char.ofNat 0)

/- peekNext from scanner.go: zero rune at or past the end. -/
def Scanner.peekNext (s : Scanner) : Char :=
  if s.source.length ≤ s.current + 1 then Char.ofNat 0
  else s.source.getD (s.current + 1) (Char.ofNat 0)

/- match from scanner.go (renamed: `match` is reserved in Lean). -/
def Scanner.matchChar (s : Scanner) (expected : Char) : Bool × Scanner :=
  if s.isAtEnd then (false, s)
  else if s.source.getD s.current (Char.ofNat 0) ≠ expected then (false, s)
  else (true, { s with current := s.current + 1 })

/- Lox.reportError from lox.go, seen from the scanner: one report appended
   to the diagnostic sink, carrying the current line. -/
def Scanner.reportError (s : Scanner) (e : LexError) : Scanner :=
  { s with errors := s.errors ++ [(s.line, e)] }

/- addTokenWithLiteral from scanner.go. -/
def Scanner.addTokenWithLiteral (s : Scanner) (tokenType : TokenType)
    (literal : Literal) : Scanner :=
  { s with tokens := s.tokens ++
      [{ tokenType := tokenType, lexeme := subSlice s.source s.start s.current,
         literal := literal, line := s.line }] }

/- addToken from scanner.go. -/
def Scanner.addToken (s : Scanner) (tokenType : TokenType) : Scanner :=
  s.addTokenWithLiteral tokenType .nil

/- The `for s.peek() != '\n' && !s.isAtEnd() { s.advance() }` loop of the
   line-comment branch of scanToken. -/
def lineCommentLoopF : Nat → Scanner → Scanner
  | 0, s => s
  | fuel + 1, s =>
      if s.peek ≠ '\n' ∧ ¬ s.isAtEnd then lineCommentLoopF fuel (s.advance).2 else s

/- The scanning loop of string: consume until closing quote or end,
   counting newlines. -/
def stringLoopF : Nat → Scanner → Scanner
  | 0, s => s
  | fuel + 1, s =>
      if s.peek ≠ '"' ∧ ¬ s.isAtEnd then
        let s1 := if s.peek = '\n' then { s with line := s.line + 1 } else s
        stringLoopF fuel (s1.advance).2
      else s

/- The `for s.isDigit(s.peek()) { s.advance() }` loops of number. -/
def digitsLoopF : Nat → Scanner → Scanner
  | 0, s => s
  | fuel + 1, s =>
      if isDigit s.peek then digitsLoopF fuel (s.advance).2 else s

/- The `for s.isAlphaNumeric(s.peek()) { s.advance() }` loop of identifier. -/
def identifierLoopF : Nat → Scanner → Scanner
  | 0, s => s
  | fuel + 1, s =>
      if isAlphaNumeric s.peek then identifierLoopF fuel (s.advance).2 else s

/- blockComment from scanner.go. -/
def blockCommentF : Nat → Scanner → Scanner
  | 0, s => s
  | fuel + 1, s =>
      if ¬ s.isAtEnd then
        if s.peek = '*' ∧ s.peekNext = '/' then
          ((s.advance).2.advance).2
        else
          let s1 := if s.peek = '\n' then { s with line := s.line + 1 } else s
          blockCommentF fuel (s1.advance).2
      else s.reportError .unterminatedBlockComment

def Scanner.blockComment (s : Scanner) : Scanner :=
  blockCommentF (s.source.length + 1) s

/- The part of string after its scanning loop: report an unterminated
   string, or consume the closing quote and emit the STRING token whose
   literal value is the text strictly between the quotes. -/
def stringFinish (s1 : Scanner) : Scanner :=
  if s1.isAtEnd then s1.reportError .unterminatedString
  else
    let s2 := (s1.advance).2
    let value := subSlice s2.source (s2.start + 1) (s2.current - 1)
    s2.addTokenWithLiteral .STRING (.str value)

/- string from scanner.go. -/
def Scanner.string (s : Scanner) : Scanner :=
  stringFinish (stringLoopF (s.source.length + 1) s)

/- The final step of number: parse the matched text, report the defensive
   error when ParseFloat fails, else emit the NUMBER token. -/
def numFinish (s2 : Scanner) (text : List Char) : Scanner :=
  match parseFloatGo text with
  | none => s2.reportError .invalidNumberLiteral
  | some v => s2.addTokenWithLiteral .NUMBER (.num v)

/- number from scanner.go. -/
def Scanner.number (s : Scanner) : Scanner :=
  let s1 := digitsLoopF (s.source.length + 1) s
  let s2 :=
    if s1.peek = '.' ∧ isDigit s1.peekNext then
      digitsLoopF (s.source.length + 1) ((s1.advance).2)
    else s1
  numFinish s2 (subSlice s2.source s2.start s2.current)

/- The final step of identifier: keyword lookup on the matched text. -/
def identFinish (s1 : Scanner) (text : List Char) : Scanner :=
  match keywords text with
  | some tokenType => s1.addToken tokenType
  | none => s1.addToken .IDENTIFIER

/- identifier from scanner.go. -/
def Scanner.identifier (s : Scanner) : Scanner :=
  let s1 := identifierLoopF (s.source.length + 1) s
  identFinish s1 (subSlice s1.source s1.start s1.current)

/- scanToken from scanner.go. -/
def Scanner.scanToken (s0 : Scanner) : Scanner :=
  let a := s0.advance
  let c := a.1
  let s := a.2
  match c with
  | '(' => s.addToken .LEFT_PAREN
  | ')' => s.addToken .RIGHT_PAREN
  | '{' => s.addToken .LEFT_BRACE
  | '}' => s.addToken .RIGHT_BRACE
  | ',' => s.addToken .COMMA
  | '.' => s.addToken .DOT
  | '-' => s.addToken .MINUS
  | '+' => s.addToken .PLUS
  | ';' => s.addToken .SEMICOLON
  | '*' => s.addToken .STAR
  | '!' =>
      let m := s.matchChar '='
      if m.1 then m.2.addToken .BANG_EQUAL else m.2.addToken .BANG
  | '=' =>
      let m := s.matchChar '='
      if m.1 then m.2.addToken .EQUAL_EQUAL else m.2.addToken .EQUAL
  | '<' =>
      let m := s.matchChar '='
      if m.1 then m.2.addToken .LESS_EQUAL else m.2.addToken .LESS
  | '>' =>
      let m := s.matchChar '='
      if m.1 then m.2.addToken .GREATER_EQUAL else m.2.addToken .GREATER
  | '/' =>
      let m := s.matchChar '/'
      if m.1 then lineCommentLoopF (m.2.source.length + 1) m.2
      else
        let m2 := m.2.matchChar '*'
        if m2.1 then m2.2.blockComment else m2.2.addToken .SLASH
  | ' ' => s
  | '\r' => s
  | '\t' => s
  | '\n' => { s with line := s.line + 1 }
  | '"' => s.string
  | _ =>
      if isDigit c then s.number
      else if isAlpha c then s.identifier
      else s.reportError .unexpectedCharacter

/- The `for !s.isAtEnd() { s.start = s.current; s.scanToken() }` loop of
   ScanTokens. -/
def scanTokensLoopF : Nat → Scanner → Scanner
  | 0, s => s
  | fuel + 1, s =>
      if ¬ s.isAtEnd then
        scanTokensLoopF fuel (Scanner.scanToken { s with start := s.current })
      else s

/- ScanTokens from scanner.go: run the loop, then append the EOF token. -/
def Scanner.ScanTokens (s : Scanner) : Scanner :=
  let s1 := scanTokensLoopF (s.source.length + 1) s
  { s1 with tokens := s1.tokens ++
      [{ tokenType := .EOF, lexeme := [], literal := .nil, line := s1.line }] }

/- NewScanner from scanner.go (line starts at 1). -/
def NewScanner (source : List Char) : Scanner :=
  { source := source, tokens := [], start := 0, current := 0, line := 1,
    errors := [], oob := false }

/- The spec's `scan(source)` contract: a whole run of the scanner.  The
   result carries the token sequence, the reports made to the diagnostic
   sink, the final line, and the bounds-instrumentation flag. -/
def scan (source : List Char) : Scanner := (NewScanner source).ScanTokens

/- The characters that have their own dispatch case in scanToken's switch;
   everything else falls to the default case. -/
def dispatchChars : List Char :=
  ['(', ')', '{', '}', ',', '.', '-', '+', ';', '*',
   '!', '=', '<', '>', '/', ' ', '\r', '\t', '\n', '"']

/- A character the grammar does not recognize at the start of a lexeme:
   no dispatch case, not a digit, not an identifier start. -/
def isInvalidChar (c : Char) : Bool :=
  !(dispatchChars.contains c) && !(isDigit c) && !(isAlpha c)

/- The one- and two-character token types produced by the four
   lookahead-resolved operator characters of scanToken. -/
def opPair (c : Char) : Option (TokenType × TokenType) :=
  if c = '!' then some (.BANG, .BANG_EQUAL)
  else if c = '=' then some (.EQUAL, .EQUAL_EQUAL)
  else if c = '<' then some (.LESS, .LESS_EQUAL)
  else if c = '>' then some (.GREATER, .GREATER_EQUAL)
  else none

/- Whether a character list contains an adjacent "*/" pair (what
   blockComment searches for: a '*' whose following character is '/'). -/
def hasStarSlash : List Char → Bool
  | [] => false
  | c :: rest =>
      (c = '*' && rest.headD (Char.ofNat 0) = '/') || hasStarSlash rest

/- Every run of consecutive digits in l has length at most n. -/
def digitRunsBounded (l : List Char) (n : Nat) : Prop :=
  ∀ i : Nat, ((l.drop i).takeWhile isDigit).length ≤ n

/- What one scanning action does to the state, as an invariant: the source
   is untouched, the cursor and the line only grow, no out-of-bounds read
   appears, tokens are appended (never EOF, tagged with line values between
   the entry and exit lines, in non-decreasing line order), and diagnostic
   reports are appended. -/
def Extends (s s' : Scanner) : Prop :=
  s'.source = s.source ∧
  s.current ≤ s'.current ∧
  s.line ≤ s'.line ∧
  s'.oob = s.oob ∧
  (∃ ts, s'.tokens = s.tokens ++ ts ∧
     ts.Pairwise (fun a b => a.line ≤ b.line) ∧
     ∀ t ∈ ts, t.tokenType ≠ TokenType.EOF ∧ s.line ≤ t.line ∧ t.line ≤ s'.line) ∧
  (∃ es, s'.errors = s.errors ++ es)

/- ### List and field helpers -/

theorem getD_eq_headD_drop (l : List Char) (n : Nat) (d : Char) :
    l.getD n d = (l.drop n).headD d := by
  induction l generalizing n with
  | nil => cases n <;> rfl
  | cons c rest ih =>
      cases n with
      | zero => rfl
      | succ m => exact ih m

theorem drop_succ_eq (l : List Char) (n : Nat) :
    l.drop (n + 1) = (l.drop n).tail := by
  induction l generalizing n with
  | nil => simp
  | cons c rest ih =>
      cases n with
      | zero => simp
      | succ m => exact ih m

theorem isAtEnd_eq_false_iff (s : Scanner) :
    s.isAtEnd = false ↔ s.current < s.source.length := by
  simp [Scanner.isAtEnd]

theorem isAtEnd_eq_true_iff (s : Scanner) :
    s.isAtEnd = true ↔ s.source.length ≤ s.current := by
  simp [Scanner.isAtEnd]

theorem peek_eq_headD (s : Scanner) :
    s.peek = (s.source.drop s.current).headD (Char.ofNat 0) := by
  by_cases h : s.source.length ≤ s.current
  · have hd : s.source.drop s.current = [] := List.drop_eq_nil_of_le h
    simp [Scanner.peek, Scanner.isAtEnd, h, hd]
  · simp [Scanner.peek, Scanner.isAtEnd, h, getD_eq_headD_drop]

theorem peekNext_eq_headD (s : Scanner) :
    s.peekNext = (s.source.drop (s.current + 1)).headD (Char.ofNat 0) := by
  by_cases h : s.source.length ≤ s.current + 1
  · have hd : s.source.drop (s.current + 1) = [] := List.drop_eq_nil_of_le h
    simp [Scanner.peekNext, h, hd]
  · simp [Scanner.peekNext, h, getD_eq_headD_drop]

/- When the rest of the source is explicitly a cons cell, the basic reads
   take a concrete form. -/
theorem peek_of_drop_cons {s : Scanner} {c : Char} {rest : List Char}
    (h : s.source.drop s.current = c :: rest) : s.peek = c := by
  rw [peek_eq_headD, h]; rfl

theorem not_isAtEnd_of_drop_cons {s : Scanner} {c : Char} {rest : List Char}
    (h : s.source.drop s.current = c :: rest) : s.isAtEnd = false := by
  rw [isAtEnd_eq_false_iff]
  by_contra hlt
  have : s.source.drop s.current = [] := List.drop_eq_nil_of_le (by omega)
  simp [this] at h

theorem drop_current_advance {s : Scanner} {c : Char} {rest : List Char}
    (h : s.source.drop s.current = c :: rest) :
    s.source.drop (s.current + 1) = rest := by
  rw [drop_succ_eq, h]; rfl

/- ### The Extends invariant -/

theorem Extends.refl (s : Scanner) : Extends s s :=
  ⟨rfl, Nat.le_refl _, Nat.le_refl _, rfl,
   ⟨[], by simp, by simp, by simp⟩, ⟨[], by simp⟩⟩

theorem Extends.trans {s1 s2 s3 : Scanner}
    (h12 : Extends s1 s2) (h23 : Extends s2 s3) : Extends s1 s3 := by
  obtain ⟨hsrc, hcur, hline, hoob, ⟨ts1, hts1, hp1, hb1⟩, ⟨es1, hes1⟩⟩ := h12
  obtain ⟨hsrc2, hcur2, hline2, hoob2, ⟨ts2, hts2, hp2, hb2⟩, ⟨es2, hes2⟩⟩ := h23
  refine ⟨hsrc2.trans hsrc, Nat.le_trans hcur hcur2, Nat.le_trans hline hline2,
    hoob2.trans hoob,
    ⟨ts1 ++ ts2, by rw [hts2, hts1, List.append_assoc], ?_, ?_⟩,
    ⟨es1 ++ es2, by rw [hes2, hes1, List.append_assoc]⟩⟩
  · rw [List.pairwise_append]
    exact ⟨hp1, hp2, fun a ha b hb => Nat.le_trans (hb1 a ha).2.2 (hb2 b hb).2.1⟩
  · intro t ht
    rcases List.mem_append.mp ht with h | h
    · exact ⟨(hb1 t h).1, (hb1 t h).2.1, Nat.le_trans (hb1 t h).2.2 hline2⟩
    · exact ⟨(hb2 t h).1, Nat.le_trans hline (hb2 t h).2.1, (hb2 t h).2.2⟩

theorem extends_advance {s : Scanner} (h : s.isAtEnd = false) :
    Extends s (s.advance).2 :=
  ⟨rfl, Nat.le_succ _, Nat.le_refl _, by simp [Scanner.advance, h],
   ⟨[], by simp [Scanner.advance], by simp, by simp⟩,
   ⟨[], by simp [Scanner.advance]⟩⟩

theorem extends_bumpLine (s : Scanner) :
    Extends s { s with line := s.line + 1 } :=
  ⟨rfl, Nat.le_refl _, Nat.le_succ _, rfl,
   ⟨[], by simp, by simp, by simp⟩, ⟨[], by simp⟩⟩

theorem extends_reportError (s : Scanner) (e : LexError) :
    Extends s (s.reportError e) :=
  ⟨rfl, Nat.le_refl _, Nat.le_refl _, rfl,
   ⟨[], by simp [Scanner.reportError], by simp, by simp⟩,
   ⟨[(s.line, e)], rfl⟩⟩

theorem extends_addTokenWithLiteral {tokenType : TokenType}
    (h : tokenType ≠ TokenType.EOF) (s : Scanner) (lit : Literal) :
    Extends s (s.addTokenWithLiteral tokenType lit) := by
  refine ⟨rfl, Nat.le_refl _, Nat.le_refl _, rfl,
    ⟨[{ tokenType := tokenType, lexeme := subSlice s.source s.start s.current,
        literal := lit, line := s.line }], rfl, by simp, ?_⟩,
    ⟨[], by simp [Scanner.addTokenWithLiteral]⟩⟩
  intro t ht
  simp only [List.mem_singleton] at ht
  subst ht
  exact ⟨h, Nat.le_refl _, Nat.le_refl _⟩

theorem extends_addToken {tokenType : TokenType}
    (h : tokenType ≠ TokenType.EOF) (s : Scanner) :
    Extends s (s.addToken tokenType) :=
  extends_addTokenWithLiteral h s .nil

theorem extends_matchChar (s : Scanner) (c : Char) :
    Extends s (s.matchChar c).2 := by
  unfold Scanner.matchChar
  split
  · exact Extends.refl s
  · split
    · exact Extends.refl s
    · exact ⟨rfl, Nat.le_succ _, Nat.le_refl _, rfl,
        ⟨[], by simp, by simp, by simp⟩, ⟨[], by simp⟩⟩

theorem peek_eq_zero_of_atEnd {s : Scanner} (h : s.isAtEnd = true) :
    s.peek = Char.ofNat 0 := by
  simp [Scanner.peek, h]

theorem not_atEnd_of_peek_ne {s : Scanner} (h : s.peek ≠ Char.ofNat 0) :
    s.isAtEnd = false := by
  cases he : s.isAtEnd
  · rfl
  · exact absurd (peek_eq_zero_of_atEnd he) h

theorem not_atEnd_of_isDigit_peek {s : Scanner} (h : isDigit s.peek = true) :
    s.isAtEnd = false := by
  refine not_atEnd_of_peek_ne ?_
  intro he
  rw [he] at h
  exact absurd h (by decide)

theorem not_atEnd_of_isAlphaNumeric_peek {s : Scanner}
    (h : isAlphaNumeric s.peek = true) : s.isAtEnd = false := by
  refine not_atEnd_of_peek_ne ?_
  intro he
  rw [he] at h
  exact absurd h (by decide)

theorem peekNext_bound {s : Scanner} (h : s.peekNext ≠ Char.ofNat 0) :
    s.current + 1 < s.source.length := by
  by_contra hc
  have : s.source.length ≤ s.current + 1 := by omega
  simp [Scanner.peekNext, this] at h

theorem extends_lineCommentLoopF : ∀ (fuel : Nat) (s : Scanner),
    Extends s (lineCommentLoopF fuel s)
  | 0, s => Extends.refl s
  | fuel + 1, s => by
      unfold lineCommentLoopF
      split
      · next hg =>
          have hend : s.isAtEnd = false := by
            rcases hg with ⟨-, h2⟩
            cases he : s.isAtEnd
            · rfl
            · simp [he] at h2
          exact (extends_advance hend).trans (extends_lineCommentLoopF fuel _)
      · exact Extends.refl s

theorem extends_stringLoopF : ∀ (fuel : Nat) (s : Scanner),
    Extends s (stringLoopF fuel s)
  | 0, s => Extends.refl s
  | fuel + 1, s => by
      unfold stringLoopF
      split
      · next hg =>
          have hend : s.isAtEnd = false := by
            rcases hg with ⟨-, h2⟩
            cases he : s.isAtEnd
            · rfl
            · simp [he] at h2
          split
          · next hnl =>
              have hend1 : Scanner.isAtEnd { s with line := s.line + 1 } = false := hend
              exact ((extends_bumpLine s).trans (extends_advance hend1)).trans
                (extends_stringLoopF fuel _)
          · exact (extends_advance hend).trans (extends_stringLoopF fuel _)
      · exact Extends.refl s

theorem extends_digitsLoopF : ∀ (fuel : Nat) (s : Scanner),
    Extends s (digitsLoopF fuel s)
  | 0, s => Extends.refl s
  | fuel + 1, s => by
      unfold digitsLoopF
      split
      · next hg =>
          exact (extends_advance (not_atEnd_of_isDigit_peek hg)).trans
            (extends_digitsLoopF fuel _)
      · exact Extends.refl s

theorem extends_identifierLoopF : ∀ (fuel : Nat) (s : Scanner),
    Extends s (identifierLoopF fuel s)
  | 0, s => Extends.refl s
  | fuel + 1, s => by
      unfold identifierLoopF
      split
      · next hg =>
          exact (extends_advance (not_atEnd_of_isAlphaNumeric_peek hg)).trans
            (extends_identifierLoopF fuel _)
      · exact Extends.refl s

theorem extends_blockCommentF : ∀ (fuel : Nat) (s : Scanner),
    Extends s (blockCommentF fuel s)
  | 0, s => Extends.refl s
  | fuel + 1, s => by
      unfold blockCommentF
      split
      · next hne =>
          have hend : s.isAtEnd = false := by
            cases he : s.isAtEnd
            · rfl
            · simp [he] at hne
          split
          · next hss =>
              have h2 : ((s.advance).2).isAtEnd = false := by
                have := @peekNext_bound s (by rw [hss.2]; decide)
                simp [Scanner.advance, Scanner.isAtEnd]
                omega
              exact (extends_advance hend).trans (extends_advance h2)
          · next hsc =>
              split
              · next hnl =>
                  have hend1 : Scanner.isAtEnd { s with line := s.line + 1 } = false := hend
                  exact ((extends_bumpLine s).trans (extends_advance hend1)).trans
                    (extends_blockCommentF fuel _)
              · exact (extends_advance hend).trans (extends_blockCommentF fuel _)
      · exact extends_reportError s _


theorem keywords_ne_eof {text : List Char} {t : TokenType}
    (h : keywords text = some t) : t ≠ TokenType.EOF := by
  unfold keywords at h
  cases hf : keywordPairs.find? (fun p => p.1 == text) with
  | none => rw [hf] at h; simp at h
  | some p =>
      rw [hf] at h
      simp only [Option.map_some'] at h
      have hmem : p ∈ keywordPairs := List.mem_of_find?_eq_some hf
      have hall : ∀ q ∈ keywordPairs, q.2 ≠ TokenType.EOF := by decide
      have h2 : p.2 = t := Option.some.inj h
      intro hc
      exact hall p hmem (h2.trans hc)

theorem extends_blockComment (s : Scanner) : Extends s s.blockComment :=
  extends_blockCommentF _ s

theorem extends_stringFinish (s1 : Scanner) : Extends s1 (stringFinish s1) := by
  by_cases hend : s1.isAtEnd = true
  · have : stringFinish s1 = s1.reportError .unterminatedString := by
      unfold stringFinish; rw [hend]; simp
    rw [this]
    exact extends_reportError _ _
  · have hend' : s1.isAtEnd = false := by
      cases he : s1.isAtEnd
      · rfl
      · exact absurd he hend
    have : stringFinish s1 = ((s1.advance).2).addTokenWithLiteral .STRING
        (.str (subSlice ((s1.advance).2).source (((s1.advance).2).start + 1)
          (((s1.advance).2).current - 1))) := by
      unfold stringFinish; rw [hend']; simp
    rw [this]
    exact (extends_advance hend').trans (extends_addTokenWithLiteral (by decide) _ _)

theorem extends_string (s : Scanner) : Extends s s.string :=
  (extends_stringLoopF (s.source.length + 1) s).trans (extends_stringFinish _)

theorem extends_numFinish (s2 : Scanner) (text : List Char) :
    Extends s2 (numFinish s2 text) := by
  unfold numFinish
  cases hp : parseFloatGo text with
  | none => exact extends_reportError _ _
  | some v => exact extends_addTokenWithLiteral (by decide) _ _

theorem extends_number (s : Scanner) : Extends s s.number := by
  unfold Scanner.number
  refine Extends.trans ?_ (extends_numFinish _ _)
  by_cases hdot : (digitsLoopF (s.source.length + 1) s).peek = '.' ∧
      isDigit ((digitsLoopF (s.source.length + 1) s).peekNext)
  · rw [if_pos hdot]
    have hend : (digitsLoopF (s.source.length + 1) s).isAtEnd = false :=
      not_atEnd_of_peek_ne (by rw [hdot.1]; decide)
    exact ((extends_digitsLoopF _ s).trans (extends_advance hend)).trans
      (extends_digitsLoopF _ _)
  · rw [if_neg hdot]
    exact extends_digitsLoopF _ s

theorem extends_identFinish (s1 : Scanner) (text : List Char) :
    Extends s1 (identFinish s1 text) := by
  unfold identFinish
  cases hk : keywords text with
  | none => exact extends_addToken (by decide) _
  | some t => exact extends_addToken (keywords_ne_eof hk) _

theorem extends_identifier (s : Scanner) : Extends s s.identifier :=
  (extends_identifierLoopF (s.source.length + 1) s).trans (extends_identFinish _ _)

theorem extends_scanToken {s : Scanner} (h : s.isAtEnd = false) :
    Extends s s.scanToken := by
  have hstep : ∀ s' : Scanner, Extends (s.advance).2 s' → Extends s s' :=
    fun s' hx => (extends_advance h).trans hx
  unfold Scanner.scanToken
  dsimp only
  split
  · exact hstep _ (extends_addToken (by decide) _)
  · exact hstep _ (extends_addToken (by decide) _)
  · exact hstep _ (extends_addToken (by decide) _)
  · exact hstep _ (extends_addToken (by decide) _)
  · exact hstep _ (extends_addToken (by decide) _)
  · exact hstep _ (extends_addToken (by decide) _)
  · exact hstep _ (extends_addToken (by decide) _)
  · exact hstep _ (extends_addToken (by decide) _)
  · exact hstep _ (extends_addToken (by decide) _)
  · exact hstep _ (extends_addToken (by decide) _)
  · split
    · exact hstep _ ((extends_matchChar _ _).trans (extends_addToken (by decide) _))
    · exact hstep _ ((extends_matchChar _ _).trans (extends_addToken (by decide) _))
  · split
    · exact hstep _ ((extends_matchChar _ _).trans (extends_addToken (by decide) _))
    · exact hstep _ ((extends_matchChar _ _).trans (extends_addToken (by decide) _))
  · split
    · exact hstep _ ((extends_matchChar _ _).trans (extends_addToken (by decide) _))
    · exact hstep _ ((extends_matchChar _ _).trans (extends_addToken (by decide) _))
  · split
    · exact hstep _ ((extends_matchChar _ _).trans (extends_addToken (by decide) _))
    · exact hstep _ ((extends_matchChar _ _).trans (extends_addToken (by decide) _))
  · split
    · exact hstep _ ((extends_matchChar _ _).trans (extends_lineCommentLoopF _ _))
    · split
      · exact hstep _ ((extends_matchChar _ _).trans
          ((extends_matchChar _ _).trans (extends_blockComment _)))
      · exact hstep _ ((extends_matchChar _ _).trans
          ((extends_matchChar _ _).trans (extends_addToken (by decide) _)))
  · exact hstep _ (Extends.refl _)
  · exact hstep _ (Extends.refl _)
  · exact hstep _ (Extends.refl _)
  · exact hstep _ (extends_bumpLine _)
  · exact hstep _ (extends_string _)
  · split
    · exact hstep _ (extends_number _)
    · split
      · exact hstep _ (extends_identifier _)
      · exact hstep _ (extends_reportError _ _)

theorem scanToken_current_lt (s : Scanner) :
    s.current < s.scanToken.current := by
  have hstep : ∀ s' : Scanner, Extends (s.advance).2 s' → s.current < s'.current := by
    intro s' hx
    have h1 : ((s.advance).2).current ≤ s'.current := hx.2.1
    have h2 : ((s.advance).2).current = s.current + 1 := rfl
    omega
  unfold Scanner.scanToken
  dsimp only
  split
  · exact hstep _ (extends_addToken (by decide) _)
  · exact hstep _ (extends_addToken (by decide) _)
  · exact hstep _ (extends_addToken (by decide) _)
  · exact hstep _ (extends_addToken (by decide) _)
  · exact hstep _ (extends_addToken (by decide) _)
  · exact hstep _ (extends_addToken (by decide) _)
  · exact hstep _ (extends_addToken (by decide) _)
  · exact hstep _ (extends_addToken (by decide) _)
  · exact hstep _ (extends_addToken (by decide) _)
  · exact hstep _ (extends_addToken (by decide) _)
  · split
    · exact hstep _ ((extends_matchChar _ _).trans (extends_addToken (by decide) _))
    · exact hstep _ ((extends_matchChar _ _).trans (extends_addToken (by decide) _))
  · split
    · exact hstep _ ((extends_matchChar _ _).trans (extends_addToken (by decide) _))
    · exact hstep _ ((extends_matchChar _ _).trans (extends_addToken (by decide) _))
  · split
    · exact hstep _ ((extends_matchChar _ _).trans (extends_addToken (by decide) _))
    · exact hstep _ ((extends_matchChar _ _).trans (extends_addToken (by decide) _))
  · split
    · exact hstep _ ((extends_matchChar _ _).trans (extends_addToken (by decide) _))
    · exact hstep _ ((extends_matchChar _ _).trans (extends_addToken (by decide) _))
  · split
    · exact hstep _ ((extends_matchChar _ _).trans (extends_lineCommentLoopF _ _))
    · split
      · exact hstep _ ((extends_matchChar _ _).trans
          ((extends_matchChar _ _).trans (extends_blockComment _)))
      · exact hstep _ ((extends_matchChar _ _).trans
          ((extends_matchChar _ _).trans (extends_addToken (by decide) _)))
  · exact hstep _ (Extends.refl _)
  · exact hstep _ (Extends.refl _)
  · exact hstep _ (Extends.refl _)
  · exact hstep _ (extends_bumpLine _)
  · exact hstep _ (extends_string _)
  · split
    · exact hstep _ (extends_number _)
    · split
      · exact hstep _ (extends_identifier _)
      · exact hstep _ (extends_reportError _ _)

theorem extends_scanTokensLoopF : ∀ (fuel : Nat) (s : Scanner),
    Extends s (scanTokensLoopF fuel s)
  | 0, s => Extends.refl s
  | fuel + 1, s => by
      unfold scanTokensLoopF
      split
      · next hne =>
          have hend : s.isAtEnd = false := by
            cases he : s.isAtEnd
            · rfl
            · simp [he] at hne
          have hstart : Extends s { s with start := s.current } :=
            ⟨rfl, Nat.le_refl _, Nat.le_refl _, rfl,
             ⟨[], by simp, by simp, by simp⟩, ⟨[], by simp⟩⟩
          have hend' : Scanner.isAtEnd { s with start := s.current } = false := hend
          exact (hstart.trans (extends_scanToken hend')).trans
            (extends_scanTokensLoopF fuel _)
      · exact Extends.refl s

/- With fuel exceeding the remaining character count, the main loop's
   result does not depend on the fuel: the loop genuinely terminates. -/
theorem scanTokensLoopF_fuel_irrel : ∀ (f1 f2 : Nat) (s : Scanner),
    s.source.length - s.current < f1 → s.source.length - s.current < f2 →
    scanTokensLoopF f1 s = scanTokensLoopF f2 s
  | 0, _, s, h1, _ => absurd h1 (by omega)
  | _ + 1, 0, s, _, h2 => absurd h2 (by omega)
  | f1 + 1, f2 + 1, s, h1, h2 => by
      unfold scanTokensLoopF
      split
      · next hne =>
          have hend : s.isAtEnd = false := by
            cases he : s.isAtEnd
            · rfl
            · simp [he] at hne
          have hlt : s.current < s.source.length :=
            (isAtEnd_eq_false_iff s).mp hend
          set t := Scanner.scanToken { s with start := s.current } with ht
          have hsrc : t.source = s.source :=
            (@extends_scanToken { s with start := s.current } hend).1
          have hcur : s.current < t.current :=
            scanToken_current_lt { s with start := s.current }
          have hf1 : t.source.length - t.current < f1 := by rw [hsrc]; omega
          have hf2 : t.source.length - t.current < f2 := by rw [hsrc]; omega
          exact scanTokensLoopF_fuel_irrel f1 f2 t hf1 hf2
      · rfl

/- ### Whole-run decomposition -/

theorem scan_tokens_eq (src : List Char) :
    (scan src).tokens =
      (scanTokensLoopF (src.length + 1) (NewScanner src)).tokens ++
      [{ tokenType := .EOF, lexeme := [], literal := .nil,
         line := (scanTokensLoopF (src.length + 1) (NewScanner src)).line }] := rfl

theorem scan_line_eq (src : List Char) :
    (scan src).line = (scanTokensLoopF (src.length + 1) (NewScanner src)).line := rfl

theorem scan_oob_eq (src : List Char) :
    (scan src).oob = (scanTokensLoopF (src.length + 1) (NewScanner src)).oob := rfl

theorem scan_errors_eq (src : List Char) :
    (scan src).errors = (scanTokensLoopF (src.length + 1) (NewScanner src)).errors := rfl

theorem scan_loop_extends (src : List Char) :
    Extends (NewScanner src) (scanTokensLoopF (src.length + 1) (NewScanner src)) :=
  extends_scanTokensLoopF _ _

/-- C1: For every input, ScanTokens terminates (the loop's result does not
change under any extra fuel beyond the canonical budget) and returns a
non-empty token sequence whose last element is an EOF token with empty
lexeme; no other element of the sequence has type EOF; scanning the empty
string yields exactly one EOF token at line 1. -/
theorem C1_scan_terminates_eof_last :
    (∀ src : List Char, ∃ ts, (scan src).tokens =
        ts ++ [{ tokenType := .EOF, lexeme := [], literal := .nil,
                 line := (scan src).line }] ∧
        ∀ t ∈ ts, t.tokenType ≠ TokenType.EOF) ∧
    (∀ (src : List Char) (extra : Nat),
        scanTokensLoopF (src.length + 1 + extra) (NewScanner src) =
          scanTokensLoopF (src.length + 1) (NewScanner src)) ∧
    (scan []).tokens =
      [{ tokenType := .EOF, lexeme := [], literal := .nil, line := 1 }] := by
  refine ⟨?_, ?_, by decide⟩
  · intro src
    obtain ⟨-, -, -, -, ⟨ts, hts, -, hb⟩, -⟩ := scan_loop_extends src
    refine ⟨ts, ?_, fun t ht => (hb t ht).1⟩
    rw [scan_tokens_eq, scan_line_eq, hts]
    simp [NewScanner]
  · intro src extra
    have h1 : (NewScanner src).source.length - (NewScanner src).current <
        src.length + 1 + extra := by
      show src.length - 0 < src.length + 1 + extra
      omega
    have h2 : (NewScanner src).source.length - (NewScanner src).current <
        src.length + 1 := by
      show src.length - 0 < src.length + 1
      omega
    exact scanTokensLoopF_fuel_irrel _ _ _ h1 h2

/-- C8: For every input, the line numbers of the tokens in the returned
sequence, read in emission order, are monotonically non-decreasing. -/
theorem C8_token_lines_monotone (src : List Char) :
    (scan src).tokens.Pairwise (fun a b => a.line ≤ b.line) := by
  obtain ⟨-, -, -, -, ⟨ts, hts, hp, hb⟩, -⟩ := scan_loop_extends src
  rw [scan_tokens_eq, hts]
  simp only [NewScanner, List.nil_append]
  rw [List.pairwise_append]
  refine ⟨hp, by simp, ?_⟩
  intro a ha b hb'
  simp only [List.mem_singleton] at hb'
  rw [hb']
  exact (hb a ha).2.2

/-- C9: Every read of the source during ScanTokens is in bounds: the
instrumentation flag recording an out-of-bounds advance is never set over a
whole run, and peek and peekNext return the zero rune instead of reading
past the end. -/
theorem C9_reads_in_bounds :
    (∀ src : List Char, (scan src).oob = false) ∧
    (∀ s : Scanner, s.source.length ≤ s.current → s.peek = Char.ofNat 0) ∧
    (∀ s : Scanner, s.source.length ≤ s.current + 1 →
        s.peekNext = Char.ofNat 0) := by
  refine ⟨?_, ?_, ?_⟩
  · intro src
    have h := (scan_loop_extends src).2.2.2.1
    rw [scan_oob_eq, h]
    rfl
  · intro s h
    simp [Scanner.peek, Scanner.isAtEnd, h]
  · intro s h
    simp [Scanner.peekNext, h]

/-- Witness for C9: the in-bounds facts evaluated on a concrete run and a
concrete at-the-end scanner state. -/
theorem C9_reads_in_bounds_witness :
    (scan "1 + 2.5".data).oob = false ∧
    Scanner.peek { NewScanner "ab".data with current := 2 } = Char.ofNat 0 ∧
    Scanner.peekNext { NewScanner "ab".data with current := 1 } = Char.ofNat 0 :=
  ⟨C9_reads_in_bounds.1 "1 + 2.5".data,
   C9_reads_in_bounds.2.1 _ (by decide),
   C9_reads_in_bounds.2.2 _ (by decide)⟩

/- ### Exact characterization of the string-scanning loop -/

theorem advance_state_eq {s : Scanner} (h : s.isAtEnd = false) :
    (s.advance).2 = { s with current := s.current + 1 } := by
  simp [Scanner.advance, h]

theorem bump_isAtEnd (s : Scanner) :
    Scanner.isAtEnd { s with line := s.line + 1 } = s.isAtEnd := rfl

theorem bumpAdvance_eq {s : Scanner} (h : s.isAtEnd = false) :
    ((if s.peek = '\n' then { s with line := s.line + 1 } else s).advance).2 =
      { s with current := s.current + 1,
               line := s.line + (if s.peek = '\n' then 1 else 0) } := by
  by_cases hc : s.peek = '\n'
  · rw [if_pos hc, if_pos hc]
    rw [@advance_state_eq { s with line := s.line + 1 } h]
  · rw [if_neg hc, if_neg hc]
    rw [advance_state_eq h]
    simp

theorem stringLoopF_cons {fuel : Nat} {s : Scanner} {c : Char}
    {rest : List Char} (hdrop : s.source.drop s.current = c :: rest)
    (hne : c ≠ '"') :
    stringLoopF (fuel + 1) s =
      stringLoopF fuel
        { s with current := s.current + 1,
                 line := s.line + (if c = '\n' then 1 else 0) } := by
  have hpeek : s.peek = c := peek_of_drop_cons hdrop
  have hend : s.isAtEnd = false := not_isAtEnd_of_drop_cons hdrop
  have hunf : stringLoopF (fuel + 1) s =
      if s.peek ≠ '"' ∧ ¬ s.isAtEnd then
        stringLoopF fuel
          (((if s.peek = '\n' then { s with line := s.line + 1 } else s).advance).2)
      else s := rfl
  rw [hunf, if_pos (by rw [hpeek]; exact ⟨hne, by simp [hend]⟩)]
  rw [bumpAdvance_eq hend, hpeek]

theorem stringLoopF_stop {fuel : Nat} {s : Scanner}
    (h : s.peek = '"' ∨ s.isAtEnd = true) :
    stringLoopF (fuel + 1) s = s := by
  unfold stringLoopF
  rw [if_neg]
  rcases h with h | h
  · intro hc
    exact hc.1 h
  · intro hc
    exact hc.2 (by simp [h])

theorem stringLoopF_noquote : ∀ (fuel : Nat) (s : Scanner),
    '"' ∉ s.source.drop s.current →
    (s.source.drop s.current).length < fuel →
    stringLoopF fuel s =
      { s with current := s.current + (s.source.drop s.current).length,
               line := s.line + countNL (s.source.drop s.current) }
  | 0, _, _, h2 => absurd h2 (by omega)
  | fuel + 1, s, h1, h2 => by
      cases hdrop : s.source.drop s.current with
      | nil =>
          have hend : s.isAtEnd = true := by
            rw [isAtEnd_eq_true_iff]
            by_contra hc
            have hlt : s.current < s.source.length := by omega
            have : (s.source.drop s.current).length = 0 := by rw [hdrop]; rfl
            rw [List.length_drop] at this
            omega
          rw [stringLoopF_stop (Or.inr hend)]
          simp [countNL]
      | cons c rest =>
          have hne : c ≠ '"' := by
            intro hc
            exact h1 (by rw [hdrop, hc]; exact List.mem_cons_self _ _)
          rw [stringLoopF_cons hdrop hne]
          have hdrop2 : s.source.drop (s.current + 1) = rest :=
            drop_current_advance hdrop
          have ih := stringLoopF_noquote fuel
            { s with current := s.current + 1,
                     line := s.line + (if c = '\n' then 1 else 0) }
            (by simpa [hdrop2] using fun hmem => h1 (by rw [hdrop]; exact List.mem_cons_of_mem _ hmem))
            (by simp only [hdrop2]; rw [hdrop] at h2; simp at h2; omega)
          rw [ih]
          simp only [hdrop2, hdrop, countNL, List.length_cons, Scanner.mk.injEq]
          refine ⟨trivial, trivial, trivial, by omega, by omega, trivial, trivial⟩

theorem stringLoopF_pre : ∀ (fuel : Nat) (s : Scanner) (pre post : List Char),
    s.source.drop s.current = pre ++ '"' :: post →
    '"' ∉ pre → pre.length < fuel →
    stringLoopF fuel s =
      { s with current := s.current + pre.length,
               line := s.line + countNL pre }
  | 0, _, _, _, _, _, hlen => absurd hlen (by omega)
  | fuel + 1, s, pre, post, hdrop, hpre, hlen => by
      cases pre with
      | nil =>
          have hpeek : s.peek = '"' := peek_of_drop_cons (by simpa using hdrop)
          rw [stringLoopF_stop (Or.inl hpeek)]
          simp [countNL]
      | cons c pre2 =>
          have hdropc : s.source.drop s.current = c :: (pre2 ++ '"' :: post) := by
            simpa using hdrop
          have hne : c ≠ '"' := by
            intro hc
            exact hpre (by rw [hc]; exact List.mem_cons_self _ _)
          rw [stringLoopF_cons hdropc hne]
          have hdrop2 : s.source.drop (s.current + 1) = pre2 ++ '"' :: post :=
            drop_current_advance hdropc
          have ih := stringLoopF_pre fuel
            { s with current := s.current + 1,
                     line := s.line + (if c = '\n' then 1 else 0) }
            pre2 post hdrop2
            (fun hmem => hpre (List.mem_cons_of_mem _ hmem))
            (by simp at hlen; omega)
          rw [ih]
          simp only [countNL, List.length_cons, Scanner.mk.injEq]
          refine ⟨trivial, trivial, trivial, by omega, by omega, trivial, trivial⟩

theorem string_noquote {s : Scanner} (h : '"' ∉ s.source.drop s.current) :
    s.string =
      { s with current := s.current + (s.source.drop s.current).length,
               line := s.line + countNL (s.source.drop s.current),
               errors := s.errors ++
                 [(s.line + countNL (s.source.drop s.current),
                   LexError.unterminatedString)] } := by
  have hlen : (s.source.drop s.current).length < s.source.length + 1 := by
    rw [List.length_drop]; omega
  have hloop := stringLoopF_noquote (s.source.length + 1) s h hlen
  unfold Scanner.string
  rw [hloop]
  unfold stringFinish
  rw [if_pos (by
    rw [isAtEnd_eq_true_iff]
    show s.source.length ≤ s.current + (s.source.drop s.current).length
    rw [List.length_drop]
    omega)]
  rfl

theorem string_found {s : Scanner} {pre post : List Char}
    (hdrop : s.source.drop s.current = pre ++ '"' :: post)
    (hpre : '"' ∉ pre) :
    s.string =
      { s with current := s.current + pre.length + 1,
               line := s.line + countNL pre,
               tokens := s.tokens ++
                 [{ tokenType := .STRING,
                    lexeme := subSlice s.source s.start (s.current + pre.length + 1),
                    literal := .str (subSlice s.source (s.start + 1)
                      (s.current + pre.length)),
                    line := s.line + countNL pre }] } := by
  have hdlen : (s.source.drop s.current).length = s.source.length - s.current :=
    List.length_drop _ _
  have hplen : pre.length + post.length + 1 = s.source.length - s.current := by
    rw [hdrop] at hdlen
    simp at hdlen
    omega
  have hcurlt : s.current + pre.length < s.source.length := by omega
  have hloop := stringLoopF_pre (s.source.length + 1) s pre post hdrop hpre
    (by omega)
  unfold Scanner.string
  rw [hloop]
  unfold stringFinish
  rw [if_neg (by
    intro hc
    rw [isAtEnd_eq_true_iff] at hc
    revert hc
    show ¬ (s.source.length ≤ s.current + pre.length)
    omega)]
  have hend2 : Scanner.isAtEnd
      { s with current := s.current + pre.length,
               line := s.line + countNL pre } = false := by
    rw [isAtEnd_eq_false_iff]
    exact hcurlt
  rw [advance_state_eq hend2]
  simp [Scanner.addTokenWithLiteral, Nat.add_sub_cancel]

/-- C2: Whenever a string literal is opened and end of input is reached
before a closing quote (no double quote remains in the rest of the source),
no STRING token is emitted, exactly one UnterminatedString error is
reported at the line reached (the opening line plus the newlines scanned),
and scanning the concrete unterminated input still returns a sequence
ending in EOF. -/
theorem C2_unterminated_string :
    (∀ s : Scanner, '"' ∉ s.source.drop s.current →
        (s.string).tokens = s.tokens ∧
        (s.string).errors = s.errors ++
          [(s.line + countNL (s.source.drop s.current),
            LexError.unterminatedString)]) ∧
    (scan "\"hi".data).tokens =
      [{ tokenType := .EOF, lexeme := [], literal := .nil, line := 1 }] ∧
    (scan "\"hi".data).errors = [(1, LexError.unterminatedString)] := by
  refine ⟨?_, by decide, by decide⟩
  intro s h
  rw [string_noquote h]
  exact ⟨rfl, rfl⟩

/-- Witness for C2: the unterminated-string branch evaluated on the scanner
state reached right after the opening quote of the input `"hi`. -/
theorem C2_unterminated_string_witness :
    (Scanner.string { NewScanner "\"hi".data with current := 1 }).tokens = [] ∧
    (Scanner.string { NewScanner "\"hi".data with current := 1 }).errors =
      [(1, LexError.unterminatedString)] :=
  C2_unterminated_string.1 { NewScanner "\"hi".data with current := 1 }
    (by decide)

/-- C5: For every string literal closed by a double quote, the emitted
STRING token's literal value is exactly the source text strictly between
the opening and closing quotes, verbatim (no escape processing), its lexeme
is the quoted text including both quotes, and its line is the line of the
closing quote: the line at the opening quote plus the newlines inside the
literal; no error is reported. -/
theorem C5_string_literal_value :
    ∀ (s : Scanner) (pre post : List Char),
      s.source.drop s.start = '"' :: (pre ++ '"' :: post) →
      s.current = s.start + 1 →
      '"' ∉ pre →
      (s.string).tokens = s.tokens ++
        [{ tokenType := .STRING, lexeme := '"' :: (pre ++ ['"']),
           literal := .str pre, line := s.line + countNL pre }] ∧
      (s.string).line = s.line + countNL pre ∧
      (s.string).errors = s.errors := by
  intro s pre post hq hcur hpre
  have hdrop : s.source.drop s.current = pre ++ '"' :: post := by
    rw [hcur, drop_succ_eq, hq]
    rfl
  have h1 : subSlice s.source (s.start + 1) (s.current + pre.length) = pre := by
    unfold subSlice
    rw [drop_succ_eq, hq]
    simp only [List.tail_cons]
    rw [hcur]
    have he : s.start + 1 + pre.length - (s.start + 1) = pre.length := by omega
    rw [he]
    exact List.take_left pre _
  have h2 : subSlice s.source s.start (s.current + pre.length + 1) =
      '"' :: (pre ++ ['"']) := by
    unfold subSlice
    rw [hq, hcur]
    have he : s.start + 1 + pre.length + 1 - s.start = pre.length + 1 + 1 := by
      omega
    rw [he, List.take_succ_cons]
    congr 1
    rw [List.take_append_eq_append_take]
    have hp : pre.take (pre.length + 1) = pre :=
      List.take_of_length_le (by omega)
    have hr : pre.length + 1 - pre.length = 1 := by omega
    rw [hp, hr]
    rfl
  rw [string_found hdrop hpre]
  refine ⟨?_, rfl, rfl⟩
  show s.tokens ++ _ = s.tokens ++ _
  rw [h1, h2]

/-- Witness for C5: the multi-line string literal `"a\nb"` scanned from the
state right after its opening quote; the token carries the verbatim inner
text and the closing quote's line 2. -/
theorem C5_string_literal_value_witness :
    (Scanner.string { NewScanner "\"a\nb\" x".data with current := 1 }).tokens =
      [{ tokenType := .STRING, lexeme := "\"a\nb\"".data,
         literal := .str "a\nb".data, line := 2 }] ∧
    (Scanner.string { NewScanner "\"a\nb\" x".data with current := 1 }).line = 2 ∧
    (Scanner.string { NewScanner "\"a\nb\" x".data with current := 1 }).errors =
      [] :=
  C5_string_literal_value { NewScanner "\"a\nb\" x".data with current := 1 }
    ['a', '\n', 'b'] [' ', 'x'] (by decide) (by decide) (by decide)

/- ### Exact characterization of blockComment when no closing marker exists -/

theorem blockCommentF_step {fuel : Nat} {s : Scanner} {c : Char}
    {rest : List Char} (hdrop : s.source.drop s.current = c :: rest)
    (hcond : ¬ (c = '*' ∧ rest.headD (Char.ofNat 0) = '/')) :
    blockCommentF (fuel + 1) s =
      blockCommentF fuel
        { s with current := s.current + 1,
                 line := s.line + (if c = '\n' then 1 else 0) } := by
  have hpeek : s.peek = c := peek_of_drop_cons hdrop
  have hpn : s.peekNext = rest.headD (Char.ofNat 0) := by
    rw [peekNext_eq_headD, drop_current_advance hdrop]
  have hend : s.isAtEnd = false := not_isAtEnd_of_drop_cons hdrop
  have hunf : blockCommentF (fuel + 1) s =
      if ¬ s.isAtEnd then
        if s.peek = '*' ∧ s.peekNext = '/' then ((s.advance).2.advance).2
        else blockCommentF fuel
          (((if s.peek = '\n' then { s with line := s.line + 1 } else s).advance).2)
      else s.reportError .unterminatedBlockComment := rfl
  rw [hunf, if_pos (by simp [hend]), if_neg (by rw [hpeek, hpn]; exact hcond)]
  rw [bumpAdvance_eq hend, hpeek]

theorem blockCommentF_noclose : ∀ (fuel : Nat) (s : Scanner),
    hasStarSlash (s.source.drop s.current) = false →
    (s.source.drop s.current).length < fuel →
    blockCommentF fuel s =
      { s with current := s.current + (s.source.drop s.current).length,
               line := s.line + countNL (s.source.drop s.current),
               errors := s.errors ++
                 [(s.line + countNL (s.source.drop s.current),
                   LexError.unterminatedBlockComment)] }
  | 0, _, _, h2 => absurd h2 (by omega)
  | fuel + 1, s, h1, h2 => by
      cases hdrop : s.source.drop s.current with
      | nil =>
          have hend : s.isAtEnd = true := by
            rw [isAtEnd_eq_true_iff]
            by_contra hc
            have : (s.source.drop s.current).length = 0 := by rw [hdrop]; rfl
            rw [List.length_drop] at this
            omega
          have hunf : blockCommentF (fuel + 1) s =
              if ¬ s.isAtEnd then
                if s.peek = '*' ∧ s.peekNext = '/' then ((s.advance).2.advance).2
                else blockCommentF fuel
                  (((if s.peek = '\n' then { s with line := s.line + 1 }
                     else s).advance).2)
              else s.reportError .unterminatedBlockComment := rfl
          rw [hunf, if_neg (by simp [hend])]
          simp [Scanner.reportError, countNL]
      | cons c rest =>
          have h1c : hasStarSlash (c :: rest) = false := by rw [← hdrop]; exact h1
          have hsplit : ¬ (c = '*' ∧ rest.headD (Char.ofNat 0) = '/') ∧
              hasStarSlash rest = false := by
            have : ((c = '*' && rest.headD (Char.ofNat 0) = '/') ||
                hasStarSlash rest) = false := h1c
            constructor
            · rintro ⟨hc, hr⟩
              rw [List.headD_eq_head?_getD] at hr
              simp [hc, hr] at this
            · rcases Bool.or_eq_false_iff.mp this with ⟨-, h⟩
              exact h
          rw [blockCommentF_step hdrop hsplit.1]
          have hdrop2 : s.source.drop (s.current + 1) = rest :=
            drop_current_advance hdrop
          have ih := blockCommentF_noclose fuel
            { s with current := s.current + 1,
                     line := s.line + (if c = '\n' then 1 else 0) }
            (by simpa [hdrop2] using hsplit.2)
            (by simp only [hdrop2]; rw [hdrop] at h2; simp at h2; omega)
          rw [ih]
          simp only [hdrop2, hdrop, countNL, List.length_cons, Scanner.mk.injEq]
          refine ⟨trivial, trivial, trivial, by omega, by omega, ?_, trivial⟩
          have : s.line + (if c = '\n' then 1 else 0) + countNL rest =
              s.line + ((if c = '\n' then 1 else 0) + countNL rest) := by omega
          rw [this]

theorem blockComment_noclose {s : Scanner}
    (h : hasStarSlash (s.source.drop s.current) = false) :
    s.blockComment =
      { s with current := s.current + (s.source.drop s.current).length,
               line := s.line + countNL (s.source.drop s.current),
               errors := s.errors ++
                 [(s.line + countNL (s.source.drop s.current),
                   LexError.unterminatedBlockComment)] } := by
  unfold Scanner.blockComment
  exact blockCommentF_noclose _ s h (by rw [List.length_drop]; omega)

/-- C4: A block comment is closed by the first `*/` regardless of any
intervening `/*` (no nesting): scanning `/* /* */ 2` still tokenizes the
trailing 2.  Newlines inside a comment increment the line counter and no
token is emitted for the comment: `/* a\nb */ 2` yields only NUMBER(2) at
line 2 and EOF, with no error.  When the rest of the input contains no
adjacent `*/` pair, blockComment emits no token and reports exactly one
UnterminatedBlockComment error at the final line reached. -/
theorem C4_block_comment :
    (∀ s : Scanner, hasStarSlash (s.source.drop s.current) = false →
        (s.blockComment).tokens = s.tokens ∧
        (s.blockComment).errors = s.errors ++
          [(s.line + countNL (s.source.drop s.current),
            LexError.unterminatedBlockComment)]) ∧
    (scan "/* a\nb */ 2".data).tokens =
      [{ tokenType := .NUMBER, lexeme := ['2'], literal := .num 2, line := 2 },
       { tokenType := .EOF, lexeme := [], literal := .nil, line := 2 }] ∧
    (scan "/* a\nb */ 2".data).errors = [] ∧
    (scan "/* /* */ 2".data).tokens =
      [{ tokenType := .NUMBER, lexeme := ['2'], literal := .num 2, line := 1 },
       { tokenType := .EOF, lexeme := [], literal := .nil, line := 1 }] ∧
    (scan "/* /* */ 2".data).errors = [] := by
  refine ⟨?_, by decide, by decide, by decide, by decide⟩
  intro s h
  rw [blockComment_noclose h]
  exact ⟨rfl, rfl⟩

/-- Witness for C4: the unterminated branch evaluated on the state reached
right after the `/*` of the input `/* a` (two remaining characters, no
closing marker), plus the concrete conjuncts hold by the theorem itself. -/
theorem C4_block_comment_witness :
    (Scanner.blockComment { NewScanner "/* a".data with current := 2 }).tokens
      = [] ∧
    (Scanner.blockComment { NewScanner "/* a".data with current := 2 }).errors
      = [(1, LexError.unterminatedBlockComment)] :=
  C4_block_comment.1 { NewScanner "/* a".data with current := 2 } (by decide)

/- ### Two-character operator resolution -/

theorem matchChar_hit {s : Scanner} {expected : Char}
    (h : s.source.getD s.current (Char.ofNat 0) = expected)
    (hne : expected ≠ Char.ofNat 0) :
    s.matchChar expected = (true, { s with current := s.current + 1 }) := by
  have hlt : s.current < s.source.length := by
    by_contra hc
    have hle : s.source.length ≤ s.current := by omega
    rw [List.getD_eq_default _ _ hle] at h
    exact hne h.symm
  have hend : s.isAtEnd = false := (isAtEnd_eq_false_iff s).mpr hlt
  unfold Scanner.matchChar
  rw [if_neg (by simp [hend]), if_neg (not_not_intro h)]

theorem matchChar_miss {s : Scanner} {expected : Char}
    (h : s.source.getD s.current (Char.ofNat 0) ≠ expected) :
    s.matchChar expected = (false, s) := by
  unfold Scanner.matchChar
  by_cases hend : s.isAtEnd = true
  · rw [if_pos hend]
  · rw [if_neg hend, if_pos h]

theorem scanToken_eq_op {s : Scanner} {c : Char} {t1 t2 : TokenType}
    (hc : (s.advance).1 = c) (hop : opPair c = some (t1, t2)) :
    s.scanToken =
      (if (((s.advance).2).matchChar '=').1 = true
       then ((((s.advance).2).matchChar '=').2).addToken t2
       else ((((s.advance).2).matchChar '=').2).addToken t1) := by
  unfold opPair at hop
  split_ifs at hop with h1 h2 h3 h4 <;>
    (injection hop with hop; cases hop; subst hc) <;>
    (unfold Scanner.scanToken; dsimp only; split <;> simp_all)

/-- C6: When scanToken dispatches on one of `!`, `=`, `<`, `>` (the
characters with an entry in opPair), it emits the two-character operator
token exactly when the immediately following character is `=`, consuming
that `=` (cursor moves two places); otherwise it emits the one-character
token and consumes nothing further (cursor moves one place); no error is
reported either way.  The lexeme spans from the lexeme-start marker, which
the scanning loop sets to the operator character's own position.
Concretely, scan("!=<<=") yields BANG_EQUAL, LESS, LESS_EQUAL, EOF with no
error. -/
theorem C6_operator_lookahead :
    (∀ (s : Scanner) (t1 t2 : TokenType),
      opPair (s.source.getD s.current (Char.ofNat 0)) = some (t1, t2) →
      ((s.source.getD (s.current + 1) (Char.ofNat 0) = '=' →
          (s.scanToken).tokens = s.tokens ++
            [{ tokenType := t2,
               lexeme := subSlice s.source s.start (s.current + 2),
               literal := .nil, line := s.line }] ∧
          (s.scanToken).current = s.current + 2) ∧
       (s.source.getD (s.current + 1) (Char.ofNat 0) ≠ '=' →
          (s.scanToken).tokens = s.tokens ++
            [{ tokenType := t1,
               lexeme := subSlice s.source s.start (s.current + 1),
               literal := .nil, line := s.line }] ∧
          (s.scanToken).current = s.current + 1) ∧
       (s.scanToken).errors = s.errors)) ∧
    (scan "!=<<=".data).tokens =
      [{ tokenType := .BANG_EQUAL, lexeme := ['!', '='], literal := .nil,
         line := 1 },
       { tokenType := .LESS, lexeme := ['<'], literal := .nil, line := 1 },
       { tokenType := .LESS_EQUAL, lexeme := ['<', '='], literal := .nil,
         line := 1 },
       { tokenType := .EOF, lexeme := [], literal := .nil, line := 1 }] ∧
    (scan "!=<<=".data).errors = [] := by
  refine ⟨?_, by decide, by decide⟩
  intro s t1 t2 hop
  have hrw := scanToken_eq_op rfl hop
  by_cases hnext : s.source.getD (s.current + 1) (Char.ofNat 0) = '='
  · have hm : ((s.advance).2).matchChar '=' =
        (true, { (s.advance).2 with current := ((s.advance).2).current + 1 }) :=
      matchChar_hit hnext (by decide)
    rw [hrw, hm]
    exact ⟨fun _ => ⟨rfl, rfl⟩, fun hc => absurd hnext hc, rfl⟩
  · have hm : ((s.advance).2).matchChar '=' = (false, (s.advance).2) :=
      matchChar_miss hnext
    rw [hrw, hm]
    exact ⟨fun hc => absurd hc hnext, fun _ => ⟨rfl, rfl⟩, rfl⟩

/-- Witness for C6: the hit case on input `!=` (BANG_EQUAL, two characters
consumed) and the miss case on input `<` alone (LESS, one character
consumed). -/
theorem C6_operator_lookahead_witness :
    ((Scanner.scanToken (NewScanner "!=".data)).tokens =
      [{ tokenType := TokenType.BANG_EQUAL, lexeme := ['!', '='],
         literal := .nil, line := 1 }] ∧
     (Scanner.scanToken (NewScanner "!=".data)).current = 2) ∧
    ((Scanner.scanToken (NewScanner "<".data)).tokens =
      [{ tokenType := TokenType.LESS, lexeme := ['<'],
         literal := .nil, line := 1 }] ∧
     (Scanner.scanToken (NewScanner "<".data)).current = 1) :=
  ⟨(C6_operator_lookahead.1 (NewScanner "!=".data)
      TokenType.BANG TokenType.BANG_EQUAL (by decide)).1 (by decide),
   (C6_operator_lookahead.1 (NewScanner "<".data)
      TokenType.LESS TokenType.LESS_EQUAL (by decide)).2.1 (by decide)⟩

theorem scanToken_invalid {s : Scanner} {c : Char} {rest : List Char}
    (hdrop : s.source.drop s.current = c :: rest)
    (hinv : isInvalidChar c = true) :
    s.scanToken = Scanner.reportError { s with current := s.current + 1 }
      LexError.unexpectedCharacter := by
  have hend : s.isAtEnd = false := not_isAtEnd_of_drop_cons hdrop
  have hc : (s.advance).1 = c := by
    show s.source.getD s.current (Char.ofNat 0) = c
    rw [getD_eq_headD_drop, hdrop]
    rfl
  unfold isInvalidChar at hinv
  simp only [Bool.and_eq_true, Bool.not_eq_true'] at hinv
  have hcont : dispatchChars.contains c = false := hinv.1.1
  have hnd : isDigit c = false := hinv.1.2
  have hna : isAlpha c = false := hinv.2
  have hadv : (s.advance).2 = { s with current := s.current + 1 } :=
    advance_state_eq hend
  unfold Scanner.scanToken
  dsimp only
  split <;>
    first
      | (rename_i heq
         rw [heq] at hc
         subst hc
         exact absurd hcont (by decide))
      | (rw [hc, if_neg (by simp [hnd]), if_neg (by simp [hna]), hadv])

theorem scanLoop_invalid : ∀ (fuel : Nat) (s : Scanner),
    (∀ c ∈ s.source.drop s.current, isInvalidChar c = true) →
    s.source.length - s.current < fuel →
    (scanTokensLoopF fuel s).tokens = s.tokens ∧
    (scanTokensLoopF fuel s).errors = s.errors ++
      (s.source.drop s.current).map
        (fun _ => (s.line, LexError.unexpectedCharacter)) ∧
    (scanTokensLoopF fuel s).line = s.line
  | 0, _, _, h2 => absurd h2 (by omega)
  | fuel + 1, s, h1, h2 => by
      have hunf : scanTokensLoopF (fuel + 1) s =
          if ¬ s.isAtEnd then
            scanTokensLoopF fuel
              (Scanner.scanToken { s with start := s.current })
          else s := rfl
      cases hdrop : s.source.drop s.current with
      | nil =>
          have hend : s.isAtEnd = true := by
            rw [isAtEnd_eq_true_iff]
            by_contra hc
            have h0 : (s.source.drop s.current).length = 0 := by rw [hdrop]; rfl
            rw [List.length_drop] at h0
            omega
          rw [hunf, if_neg (by simp [hend])]
          simp
      | cons c rest =>
          have hend : s.isAtEnd = false := not_isAtEnd_of_drop_cons hdrop
          have hlt : s.current < s.source.length :=
            (isAtEnd_eq_false_iff s).mp hend
          rw [hunf, if_pos (by simp [hend])]
          have hcinv : isInvalidChar c = true :=
            h1 c (by rw [hdrop]; exact List.mem_cons_self _ _)
          rw [@scanToken_invalid { s with start := s.current } c rest hdrop
            hcinv]
          have hdrop2 : s.source.drop (s.current + 1) = rest :=
            drop_current_advance hdrop
          have ih := scanLoop_invalid fuel
            (Scanner.reportError
              { s with start := s.current, current := s.current + 1 }
              LexError.unexpectedCharacter)
            (by
              intro d hd
              refine h1 d ?_
              rw [hdrop]
              refine List.mem_cons_of_mem _ ?_
              simpa [Scanner.reportError, hdrop2] using hd)
            (by simp [Scanner.reportError]; omega)
          refine ⟨?_, ?_, ?_⟩
          · rw [ih.1]; rfl
          · rw [ih.2.1]
            simp only [Scanner.reportError, hdrop2, hdrop, List.map_cons]
            simp
          · rw [ih.2.2]; rfl

/-- C10: For an input consisting entirely of lexically-invalid characters
(no dispatch case, not a digit, not an ASCII letter or underscore —
including any non-ASCII letter), each character is reported individually:
reportError receives exactly one UnexpectedCharacter per offending
character, in order, and the returned token sequence contains nothing
besides the final EOF. -/
theorem C10_invalid_chars_reported_individually :
    ∀ src : List Char, (∀ c ∈ src, isInvalidChar c = true) →
      (scan src).errors =
        src.map (fun _ => (1, LexError.unexpectedCharacter)) ∧
      (scan src).tokens =
        [{ tokenType := .EOF, lexeme := [], literal := .nil, line := 1 }] := by
  intro src h
  have hloop := scanLoop_invalid (src.length + 1) (NewScanner src)
    (by intro c hc; exact h c (by simpa [NewScanner] using hc))
    (by show src.length - 0 < src.length + 1; omega)
  constructor
  · rw [scan_errors_eq, hloop.2.1]
    rfl
  · rw [scan_tokens_eq, hloop.1, hloop.2.2]
    rfl

/-- Witness for C10: three consecutive invalid characters, one of them a
non-ASCII letter, produce exactly three UnexpectedCharacter reports and
only the EOF token. -/
theorem C10_invalid_chars_witness :
    (scan ['@', '@', 'λ']).errors =
      [(1, LexError.unexpectedCharacter), (1, LexError.unexpectedCharacter),
       (1, LexError.unexpectedCharacter)] ∧
    (scan ['@', '@', 'λ']).tokens =
      [{ tokenType := .EOF, lexeme := [], literal := .nil, line := 1 }] :=
  C10_invalid_chars_reported_individually ['@', '@', 'λ'] (by decide)

/- ### Exact characterization of the number-scanning loop -/

theorem digitsLoopF_stop {fuel : Nat} {s : Scanner}
    (h : isDigit s.peek = false) : digitsLoopF (fuel + 1) s = s := by
  have hunf : digitsLoopF (fuel + 1) s =
      if isDigit s.peek then digitsLoopF fuel ((s.advance).2) else s := rfl
  rw [hunf, if_neg (by simp [h])]

theorem digitsLoopF_cons {fuel : Nat} {s : Scanner} {c : Char}
    {rest : List Char} (hdrop : s.source.drop s.current = c :: rest)
    (hd : isDigit c = true) :
    digitsLoopF (fuel + 1) s =
      digitsLoopF fuel { s with current := s.current + 1 } := by
  have hpeek : s.peek = c := peek_of_drop_cons hdrop
  have hend : s.isAtEnd = false := not_isAtEnd_of_drop_cons hdrop
  have hunf : digitsLoopF (fuel + 1) s =
      if isDigit s.peek then digitsLoopF fuel ((s.advance).2) else s := rfl
  rw [hunf, if_pos (by rw [hpeek]; exact hd), advance_state_eq hend]

theorem digitsLoopF_spec : ∀ (fuel : Nat) (s : Scanner),
    ((s.source.drop s.current).takeWhile isDigit).length < fuel →
    digitsLoopF fuel s =
      { s with current := s.current +
          ((s.source.drop s.current).takeWhile isDigit).length }
  | 0, _, h => absurd h (by omega)
  | fuel + 1, s, h => by
      cases hdrop : s.source.drop s.current with
      | nil =>
          have hpeek : s.peek = Char.ofNat 0 := by
            rw [peek_eq_headD, hdrop]; rfl
          rw [digitsLoopF_stop (by rw [hpeek]; decide)]
          simp
      | cons c rest =>
          by_cases hd : isDigit c = true
          · rw [digitsLoopF_cons hdrop hd]
            have hdrop2 : s.source.drop (s.current + 1) = rest :=
              drop_current_advance hdrop
            have htw : (s.source.drop s.current).takeWhile isDigit =
                c :: rest.takeWhile isDigit := by
              rw [hdrop, List.takeWhile_cons_of_pos hd]
            have hb : ((s.source.drop s.current).takeWhile isDigit).length =
                (rest.takeWhile isDigit).length + 1 := by
              rw [htw, List.length_cons]
            have ih := digitsLoopF_spec fuel
              { s with current := s.current + 1 }
              (by
                show ((s.source.drop (s.current + 1)).takeWhile isDigit).length
                  < fuel
                rw [hdrop2]
                omega)
            rw [ih]
            simp only [hdrop2, List.takeWhile_cons_of_pos hd, List.length_cons,
              Scanner.mk.injEq]
            refine ⟨trivial, trivial, trivial, by omega, trivial, trivial,
              trivial⟩
          · have hdb : isDigit c = false := by
              cases hx : isDigit c
              · rfl
              · exact absurd hx hd
            have hpeek : s.peek = c := peek_of_drop_cons hdrop
            rw [digitsLoopF_stop (by rw [hpeek]; exact hdb)]
            rw [List.takeWhile_cons_of_neg (by simp [hdb])]
            simp

theorem numFinish_success {s2 : Scanner} {text : List Char} {v : Rat}
    (h : parseFloatGo text = some v) :
    numFinish s2 text = s2.addTokenWithLiteral .NUMBER (.num v) := by
  unfold numFinish
  rw [h]

theorem drop_takeWhile_len {s : Scanner} {d1 r1 : List Char}
    (htw : (s.source.drop s.current).takeWhile isDigit = d1)
    (hdw : (s.source.drop s.current).dropWhile isDigit = r1) :
    s.source.drop (s.current + d1.length) = r1 := by
  have hsplit : s.source.drop s.current = d1 ++ r1 := by
    rw [← htw, ← hdw]
    exact (List.takeWhile_append_dropWhile _ _).symm
  rw [← List.drop_drop, hsplit]
  exact List.drop_left d1 r1

theorem takeWhile_fuel {s : Scanner} {d1 : List Char}
    (htw : (s.source.drop s.current).takeWhile isDigit = d1) :
    d1.length < s.source.length + 1 := by
  rw [← htw]
  have h1 : ((s.source.drop s.current).takeWhile isDigit).length ≤
      (s.source.drop s.current).length :=
    (List.takeWhile_prefix _).length_le
  rw [List.length_drop] at h1
  omega

theorem number_nodot {s : Scanner} {d1 r1 : List Char}
    (htw : (s.source.drop s.current).takeWhile isDigit = d1)
    (hdw : (s.source.drop s.current).dropWhile isDigit = r1)
    (hcond : ¬ (r1.headD (Char.ofNat 0) = '.' ∧
        isDigit (r1.getD 1 (Char.ofNat 0)) = true)) :
    s.number = numFinish { s with current := s.current + d1.length }
      (subSlice s.source s.start (s.current + d1.length)) := by
  have hloop := digitsLoopF_spec (s.source.length + 1) s
    (by rw [htw]; exact takeWhile_fuel htw)
  have hdd : s.source.drop (s.current + d1.length) = r1 :=
    drop_takeWhile_len htw hdw
  have hpk : Scanner.peek { s with current := s.current + d1.length } =
      r1.headD (Char.ofNat 0) := by
    rw [peek_eq_headD]
    show (s.source.drop (s.current + d1.length)).headD _ = _
    rw [hdd]
  have hpn : Scanner.peekNext { s with current := s.current + d1.length } =
      r1.getD 1 (Char.ofNat 0) := by
    rw [peekNext_eq_headD]
    show (s.source.drop (s.current + d1.length + 1)).headD _ = _
    rw [drop_succ_eq, hdd, getD_eq_headD_drop, List.drop_one]
  unfold Scanner.number
  dsimp only
  rw [hloop, htw]
  rw [if_neg (by rw [hpk, hpn]; exact hcond)]

theorem number_dot {s : Scanner} {d1 r2 : List Char}
    (htw : (s.source.drop s.current).takeWhile isDigit = d1)
    (hdw : (s.source.drop s.current).dropWhile isDigit = '.' :: r2)
    (hd2 : isDigit (r2.headD (Char.ofNat 0)) = true) :
    s.number = numFinish
      { s with current :=
          s.current + d1.length + 1 + (r2.takeWhile isDigit).length }
      (subSlice s.source s.start
        (s.current + d1.length + 1 + (r2.takeWhile isDigit).length)) := by
  have hloop := digitsLoopF_spec (s.source.length + 1) s
    (by rw [htw]; exact takeWhile_fuel htw)
  have hdd : s.source.drop (s.current + d1.length) = '.' :: r2 :=
    drop_takeWhile_len htw hdw
  have hpk : Scanner.peek { s with current := s.current + d1.length } = '.' := by
    rw [peek_eq_headD]
    show (s.source.drop (s.current + d1.length)).headD _ = _
    rw [hdd]
    rfl
  have hpn : Scanner.peekNext { s with current := s.current + d1.length } =
      r2.headD (Char.ofNat 0) := by
    rw [peekNext_eq_headD]
    show (s.source.drop (s.current + d1.length + 1)).headD _ = _
    rw [drop_succ_eq, hdd]
    rfl
  have hend1 : Scanner.isAtEnd { s with current := s.current + d1.length } =
      false :=
    not_isAtEnd_of_drop_cons hdd
  have hdd2 : s.source.drop (s.current + d1.length + 1) = r2 := by
    rw [drop_succ_eq, hdd]
    rfl
  have hloop2 := digitsLoopF_spec (s.source.length + 1)
    { s with current := s.current + d1.length + 1 }
    (by
      show ((s.source.drop (s.current + d1.length + 1)).takeWhile
        isDigit).length < s.source.length + 1
      rw [hdd2]
      have h1 : (r2.takeWhile isDigit).length ≤ r2.length :=
        (List.takeWhile_prefix _).length_le
      have h2 : ('.' :: r2).length ≤ (s.source.drop s.current).length := by
        rw [← hdw]
        exact (List.dropWhile_suffix _).length_le
      rw [List.length_drop] at h2
      simp at h2
      omega)
  unfold Scanner.number
  dsimp only
  rw [hloop, htw]
  rw [if_pos (by rw [hpk, hpn]; exact ⟨rfl, hd2⟩)]
  rw [advance_state_eq hend1]
  rw [hloop2]
  show numFinish _ _ = _
  rw [hdd2]

/-- C3: A number literal consists of the maximal run of decimal digits,
optionally followed by a dot and a further maximal digit run, where the dot
is consumed only when a digit immediately follows it (first conjunct: when
no digit follows the dot position, the cursor stops right after the integer
digits, leaving a trailing bare dot unconsumed for the next scan iteration;
second conjunct: when a digit follows the dot, the dot and the fractional
digits are consumed); the emitted NUMBER token's literal is the matched
text parsed by ParseFloat (third conjunct).  Concretely, scan("1 + 2.5")
yields NUMBER(1), PLUS, NUMBER(2.5 = mkRat 5 2), EOF with no error, and
scan("1.") yields NUMBER(1) followed by a DOT token and EOF, showing the
bare dot is scanned next as DOT. -/
theorem C3_number_literal_grammar :
    (∀ (s : Scanner) (d1 r1 : List Char),
        (s.source.drop s.current).takeWhile isDigit = d1 →
        (s.source.drop s.current).dropWhile isDigit = r1 →
        ¬ (r1.headD (Char.ofNat 0) = '.' ∧
            isDigit (r1.getD 1 (Char.ofNat 0)) = true) →
        s.number = numFinish { s with current := s.current + d1.length }
          (subSlice s.source s.start (s.current + d1.length))) ∧
    (∀ (s : Scanner) (d1 r2 : List Char),
        (s.source.drop s.current).takeWhile isDigit = d1 →
        (s.source.drop s.current).dropWhile isDigit = '.' :: r2 →
        isDigit (r2.headD (Char.ofNat 0)) = true →
        s.number = numFinish
          { s with current :=
              s.current + d1.length + 1 + (r2.takeWhile isDigit).length }
          (subSlice s.source s.start
            (s.current + d1.length + 1 + (r2.takeWhile isDigit).length))) ∧
    (∀ (s2 : Scanner) (text : List Char) (v : Rat),
        parseFloatGo text = some v →
        numFinish s2 text = s2.addTokenWithLiteral .NUMBER (.num v)) ∧
    (scan "1 + 2.5".data).tokens =
      [{ tokenType := .NUMBER, lexeme := ['1'], literal := .num 1, line := 1 },
       { tokenType := .PLUS, lexeme := ['+'], literal := .nil, line := 1 },
       { tokenType := .NUMBER, lexeme := ['2', '.', '5'],
         literal := .num (mkRat 5 2), line := 1 },
       { tokenType := .EOF, lexeme := [], literal := .nil, line := 1 }] ∧
    (scan "1 + 2.5".data).errors = [] ∧
    (scan "1.".data).tokens =
      [{ tokenType := .NUMBER, lexeme := ['1'], literal := .num 1, line := 1 },
       { tokenType := .DOT, lexeme := ['.'], literal := .nil, line := 1 },
       { tokenType := .EOF, lexeme := [], literal := .nil, line := 1 }] ∧
    (scan "1.".data).errors = [] :=
  ⟨fun _ _ _ htw hdw hcond => number_nodot htw hdw hcond,
   fun _ _ _ htw hdw hd2 => number_dot htw hdw hd2,
   fun _ _ _ h => numFinish_success h,
   by decide, by decide, by decide, by decide⟩

/-- Witness for C3: the bare-dot case on `1.` scanned after its leading
digit (the dot is not consumed), the consumed-dot case on `2.5`, and a
concrete successful ParseFloat producing the NUMBER token. -/
theorem C3_number_literal_grammar_witness :
    Scanner.number { NewScanner "1.".data with current := 1 } =
      numFinish { NewScanner "1.".data with current := 1 } ['1'] ∧
    Scanner.number { NewScanner "2.5".data with current := 1 } =
      numFinish { NewScanner "2.5".data with current := 3 } "2.5".data ∧
    numFinish (NewScanner []) "2.5".data =
      (NewScanner []).addTokenWithLiteral .NUMBER (.num (mkRat 5 2)) :=
  ⟨C3_number_literal_grammar.1 { NewScanner "1.".data with current := 1 }
     [] ['.'] (by decide) (by decide) (by decide),
   C3_number_literal_grammar.2.1 { NewScanner "2.5".data with current := 1 }
     [] ['5'] (by decide) (by decide) (by decide),
   C3_number_literal_grammar.2.2.1 (NewScanner []) "2.5".data (mkRat 5 2)
     (by decide)⟩

/- ### The number parse-failure branch: bounds -/

theorem digit_val_le {c : Char} (h : isDigit c = true) : c.toNat - 48 ≤ 9 := by
  unfold isDigit at h
  simp only [Bool.and_eq_true, decide_eq_true_eq] at h
  have h2 : c ≤ '9' := h.2
  have h3 : c.toNat ≤ 57 := h2
  omega

theorem digit_ne_dot {c : Char} (h : isDigit c = true) : c ≠ '.' := by
  intro hc
  rw [hc] at h
  exact absurd h (by decide)

theorem digitsToNatAux_lt : ∀ (l : List Char) (acc : Nat),
    (∀ c ∈ l, isDigit c = true) →
    digitsToNatAux acc l < (acc + 1) * 10 ^ l.length
  | [], acc, _ => by
      have h0 : digitsToNatAux acc [] = acc := rfl
      have h1 : ([] : List Char).length = 0 := rfl
      rw [h0, h1, pow_zero, Nat.mul_one]
      omega
  | c :: rest, acc, h => by
      have hd : c.toNat - 48 ≤ 9 :=
        digit_val_le (h c (List.mem_cons_self _ _))
      have ih2 := digitsToNatAux_lt rest (acc * 10 + (c.toNat - 48))
        (fun d hd2 => h d (List.mem_cons_of_mem _ hd2))
      have hstep : digitsToNatAux acc (c :: rest) =
          digitsToNatAux (acc * 10 + (c.toNat - 48)) rest := rfl
      rw [hstep, List.length_cons]
      calc digitsToNatAux (acc * 10 + (c.toNat - 48)) rest
          < (acc * 10 + (c.toNat - 48) + 1) * 10 ^ rest.length := ih2
        _ ≤ ((acc + 1) * 10) * 10 ^ rest.length := by
            have hlin : acc * 10 + (c.toNat - 48) + 1 ≤ (acc + 1) * 10 := by
              omega
            exact Nat.mul_le_mul_right _ hlin
        _ = (acc + 1) * 10 ^ (rest.length + 1) := by ring

theorem digitsToNat_lt {l : List Char} (h : ∀ c ∈ l, isDigit c = true) :
    digitsToNat l < 10 ^ l.length := by
  have := digitsToNatAux_lt l 0 h
  simpa [digitsToNat] using this

theorem lineCommentLoopF_errors : ∀ (fuel : Nat) (s : Scanner),
    (lineCommentLoopF fuel s).errors = s.errors
  | 0, _ => rfl
  | fuel + 1, s => by
      unfold lineCommentLoopF
      split
      · rw [lineCommentLoopF_errors fuel]
        rfl
      · rfl

theorem stringLoopF_errors : ∀ (fuel : Nat) (s : Scanner),
    (stringLoopF fuel s).errors = s.errors
  | 0, _ => rfl
  | fuel + 1, s => by
      unfold stringLoopF
      split
      · split
        · rw [stringLoopF_errors fuel]
          rfl
        · rw [stringLoopF_errors fuel]
          rfl
      · rfl

theorem digitsLoopF_errors : ∀ (fuel : Nat) (s : Scanner),
    (digitsLoopF fuel s).errors = s.errors
  | 0, _ => rfl
  | fuel + 1, s => by
      unfold digitsLoopF
      split
      · rw [digitsLoopF_errors fuel]
        rfl
      · rfl

theorem identifierLoopF_errors : ∀ (fuel : Nat) (s : Scanner),
    (identifierLoopF fuel s).errors = s.errors
  | 0, _ => rfl
  | fuel + 1, s => by
      unfold identifierLoopF
      split
      · rw [identifierLoopF_errors fuel]
        rfl
      · rfl

theorem blockCommentF_errors : ∀ (fuel : Nat) (s : Scanner),
    ∀ e ∈ (blockCommentF fuel s).errors,
      e ∈ s.errors ∨ e.2 = LexError.unterminatedBlockComment
  | 0, _ => fun e he => Or.inl he
  | fuel + 1, s => by
      intro e he
      unfold blockCommentF at he
      split at he
      · split at he
        · exact Or.inl he
        · rcases blockCommentF_errors fuel _ e he with h | h
          · have h2 : e ∈ (if s.peek = '\n'
                then { s with line := s.line + 1 } else s).errors := h
            by_cases hnl : s.peek = '\n'
            · rw [if_pos hnl] at h2
              exact Or.inl h2
            · rw [if_neg hnl] at h2
              exact Or.inl h2
          · exact Or.inr h
      · simp [Scanner.reportError] at he
        rcases he with h | h
        · exact Or.inl h
        · right
          rw [h]

theorem drop_eq_getD_cons {l : List Char} {n : Nat} (h : n < l.length) :
    l.drop n = l.getD n (Char.ofNat 0) :: l.drop (n + 1) := by
  cases hd : l.drop n with
  | nil =>
      exfalso
      have := List.drop_eq_nil_iff.mp hd
      omega
  | cons a t =>
      have h1 : l.getD n (Char.ofNat 0) = a := by
        rw [getD_eq_headD_drop, hd]
        rfl
      have h2 : l.drop (n + 1) = t := by
        rw [drop_succ_eq, hd]
        rfl
      rw [h1, h2]

theorem digitsOf_nodot {l : List Char} (h : ∀ x ∈ l, isDigit x = true) :
    digitsOfInt l = l ∧ digitsOfFrac l = [] := by
  constructor
  · unfold digitsOfInt
    refine List.takeWhile_eq_self_iff.mpr ?_
    intro x hx
    simp [digit_ne_dot (h x hx)]
  · unfold digitsOfFrac
    rw [List.dropWhile_eq_nil_iff.mpr ?_]
    · rfl
    · intro x hx
      simp [digit_ne_dot (h x hx)]

theorem digitsOf_dot {li lf : List Char} (hi : ∀ x ∈ li, isDigit x = true) :
    digitsOfInt (li ++ '.' :: lf) = li ∧ digitsOfFrac (li ++ '.' :: lf) = lf := by
  constructor
  · unfold digitsOfInt
    rw [List.takeWhile_append_of_pos
      (by intro x hx; simp [digit_ne_dot (hi x hx)])]
    rw [List.takeWhile_cons_of_neg (by simp)]
    simp
  · unfold digitsOfFrac
    rw [List.dropWhile_append_of_pos
      (by intro x hx; simp [digit_ne_dot (hi x hx)])]
    rw [List.dropWhile_cons_of_neg (by simp)]
    rfl

theorem parseFloatGo_some_nodot {l : List Char}
    (h : ∀ x ∈ l, isDigit x = true) (hlen : l.length ≤ 308) :
    parseFloatGo l = some (decValue l) := by
  obtain ⟨hi, hf⟩ := digitsOf_nodot h
  have hN : digitsToNat l < 10 ^ 308 := by
    calc digitsToNat l < 10 ^ l.length := digitsToNat_lt h
      _ ≤ 10 ^ 308 := Nat.pow_le_pow_right (by norm_num) hlen
  have hb : (10 : Nat) ^ 308 ≤ float64OverflowNum := by decide
  unfold parseFloatGo
  rw [if_neg ?_]
  intro hc
  rw [decNum, decDen, hi, hf] at hc
  simp only [List.length_nil, pow_zero, Nat.mul_one] at hc
  have : digitsToNat ([] : List Char) = 0 := rfl
  rw [this] at hc
  omega

theorem parseFloatGo_some_dot {li lf : List Char}
    (hi : ∀ x ∈ li, isDigit x = true) (hf : ∀ x ∈ lf, isDigit x = true)
    (hlen : li.length ≤ 308) :
    parseFloatGo (li ++ '.' :: lf) = some (decValue (li ++ '.' :: lf)) := by
  obtain ⟨hInt, hFrac⟩ := @digitsOf_dot li lf hi
  have hN : digitsToNat li < 10 ^ 308 := by
    calc digitsToNat li < 10 ^ li.length := digitsToNat_lt hi
      _ ≤ 10 ^ 308 := Nat.pow_le_pow_right (by norm_num) hlen
  have hF : digitsToNat lf < 10 ^ lf.length := digitsToNat_lt hf
  have hb : (10 : Nat) ^ 308 + 1 ≤ float64OverflowNum := by decide
  unfold parseFloatGo
  rw [if_neg ?_]
  intro hc
  rw [decNum, decDen, hInt, hFrac] at hc
  have hchain : digitsToNat li * 10 ^ lf.length + digitsToNat lf <
      float64OverflowNum * 10 ^ lf.length := by
    calc digitsToNat li * 10 ^ lf.length + digitsToNat lf
        < digitsToNat li * 10 ^ lf.length + 10 ^ lf.length :=
          Nat.add_lt_add_left hF _
      _ = (digitsToNat li + 1) * 10 ^ lf.length := by ring
      _ ≤ float64OverflowNum * 10 ^ lf.length := by
          refine Nat.mul_le_mul_right _ ?_
          omega
  omega

theorem number_errors {A : Scanner} (hrb : digitRunsBounded A.source 308)
    (hstart : A.start + 1 = A.current)
    (hle : A.current ≤ A.source.length)
    (hd : isDigit (A.source.getD A.start (Char.ofNat 0)) = true) :
    (A.number).errors = A.errors := by
  have hlt : A.start < A.source.length := by omega
  set c := A.source.getD A.start (Char.ofNat 0) with hc
  have hdropstart : A.source.drop A.start = c :: A.source.drop A.current := by
    rw [drop_eq_getD_cons hlt, hstart]
  set rest := A.source.drop A.current with hrest
  set d1 := rest.takeWhile isDigit with hd1
  have hsplit : rest = d1 ++ rest.dropWhile isDigit :=
    (List.takeWhile_append_dropWhile _ _).symm
  have hd1dig : ∀ x ∈ d1, isDigit x = true :=
    fun x hx => List.mem_takeWhile_imp hx
  have hrun : d1.length + 1 ≤ 308 := by
    have h1 := hrb A.start
    rw [hdropstart, List.takeWhile_cons_of_pos hd] at h1
    simpa using h1
  by_cases hcond : (rest.dropWhile isDigit).headD (Char.ofNat 0) = '.' ∧
      isDigit ((rest.dropWhile isDigit).getD 1 (Char.ofNat 0)) = true
  · cases hdw : rest.dropWhile isDigit with
    | nil =>
        rw [hdw] at hcond
        exact absurd hcond.1 (by decide)
    | cons a r2 =>
        rw [hdw] at hcond
        obtain ⟨hdot, hdig⟩ := hcond
        have ha : a = '.' := by simpa using hdot
        subst ha
        have hdig2 : isDigit (r2.headD (Char.ofNat 0)) = true := by
          have hg : ('.' :: r2).getD 1 (Char.ofNat 0) =
              r2.headD (Char.ofNat 0) := by
            rw [getD_eq_headD_drop]
            rfl
          rw [hg] at hdig
          exact hdig
        have heq := number_dot hd1.symm hdw hdig2
        set d2 := r2.takeWhile isDigit with hd2
        have hd2dig : ∀ x ∈ d2, isDigit x = true :=
          fun x hx => List.mem_takeWhile_imp hx
        have htext : subSlice A.source A.start
            (A.current + d1.length + 1 + d2.length) = (c :: d1) ++ '.' :: d2 := by
          unfold subSlice
          have harith : A.current + d1.length + 1 + d2.length - A.start =
              (d1.length + 1 + d2.length) + 1 := by omega
          rw [harith, hdropstart, List.take_succ_cons]
          have hrestsplit : rest = d1 ++ '.' :: r2 := by rw [hsplit, hdw]
          rw [hrestsplit, List.take_append_eq_append_take]
          rw [List.take_of_length_le (by omega)]
          have harith2 : d1.length + 1 + d2.length - d1.length =
              d2.length + 1 := by omega
          rw [harith2, List.take_succ_cons]
          have hr2split : r2 = d2 ++ r2.dropWhile isDigit :=
            (List.takeWhile_append_dropWhile _ _).symm
          rw [hr2split, List.take_left]
          simp
        have hall : ∀ x ∈ c :: d1, isDigit x = true := by
          intro x hx
          rcases List.mem_cons.mp hx with h | h
          · rw [h]; exact hd
          · exact hd1dig x h
        have hlen : (c :: d1).length ≤ 308 := by simp; omega
        have hparse := @parseFloatGo_some_dot (c :: d1) d2 hall hd2dig hlen
        rw [heq, htext, numFinish_success hparse]
        rfl
  · have heq := number_nodot hd1.symm rfl hcond
    have htext : subSlice A.source A.start (A.current + d1.length) =
        c :: d1 := by
      unfold subSlice
      have harith : A.current + d1.length - A.start = d1.length + 1 := by omega
      rw [harith, hdropstart, List.take_succ_cons]
      rw [hsplit, List.take_left]
    have hall : ∀ x ∈ c :: d1, isDigit x = true := by
      intro x hx
      rcases List.mem_cons.mp hx with h | h
      · rw [h]; exact hd
      · exact hd1dig x h
    have hlen : (c :: d1).length ≤ 308 := by simp; omega
    have hparse := parseFloatGo_some_nodot hall hlen
    rw [heq, htext, numFinish_success hparse]
    rfl

theorem string_errors_kind (X : Scanner) :
    ∀ e ∈ (X.string).errors,
      e ∈ X.errors ∨ e.2 = LexError.unterminatedString := by
  intro e he
  unfold Scanner.string stringFinish at he
  split at he
  · simp [Scanner.reportError] at he
    rcases he with h | h
    · rw [stringLoopF_errors] at h
      exact Or.inl h
    · right
      rw [h]
  · have h2 : e ∈ (stringLoopF (X.source.length + 1) X).errors := he
    rw [stringLoopF_errors] at h2
    exact Or.inl h2

theorem identifier_errors (X : Scanner) : (X.identifier).errors = X.errors := by
  unfold Scanner.identifier identFinish
  dsimp only
  split
  · show (identifierLoopF (X.source.length + 1) X).errors = X.errors
    exact identifierLoopF_errors _ _
  · show (identifierLoopF (X.source.length + 1) X).errors = X.errors
    exact identifierLoopF_errors _ _

theorem matchChar_errors (s : Scanner) (c : Char) :
    ((s.matchChar c).2).errors = s.errors := by
  unfold Scanner.matchChar
  split
  · rfl
  · split <;> rfl

theorem scanToken_errors_kind {s : Scanner} (hrb : digitRunsBounded s.source 308)
    (hstart : s.start = s.current) (hlt : s.current < s.source.length) :
    ∀ e ∈ (s.scanToken).errors,
      e ∈ s.errors ∨ e.2 ≠ LexError.invalidNumberLiteral := by
  have hend : s.isAtEnd = false := (isAtEnd_eq_false_iff s).mpr hlt
  unfold Scanner.scanToken
  dsimp only
  split <;> intro e he
  · exact Or.inl he
  · exact Or.inl he
  · exact Or.inl he
  · exact Or.inl he
  · exact Or.inl he
  · exact Or.inl he
  · exact Or.inl he
  · exact Or.inl he
  · exact Or.inl he
  · exact Or.inl he
  · split at he <;>
      · have h2 : e ∈ (((s.advance).2.matchChar '=').2).errors := he
        rw [matchChar_errors] at h2
        exact Or.inl h2
  · split at he <;>
      · have h2 : e ∈ (((s.advance).2.matchChar '=').2).errors := he
        rw [matchChar_errors] at h2
        exact Or.inl h2
  · split at he <;>
      · have h2 : e ∈ (((s.advance).2.matchChar '=').2).errors := he
        rw [matchChar_errors] at h2
        exact Or.inl h2
  · split at he <;>
      · have h2 : e ∈ (((s.advance).2.matchChar '=').2).errors := he
        rw [matchChar_errors] at h2
        exact Or.inl h2
  · split at he
    · rw [lineCommentLoopF_errors, matchChar_errors] at he
      exact Or.inl he
    · split at he
      · rcases blockCommentF_errors _ _ e he with h | h
        · rw [matchChar_errors, matchChar_errors] at h
          exact Or.inl h
        · right
          rw [h]
          decide
      · have h2 : e ∈ ((((s.advance).2.matchChar '/').2.matchChar '*').2).errors :=
          he
        rw [matchChar_errors, matchChar_errors] at h2
        exact Or.inl h2
  · exact Or.inl he
  · exact Or.inl he
  · exact Or.inl he
  · exact Or.inl he
  · rcases string_errors_kind _ e he with h | h
    · exact Or.inl h
    · right
      rw [h]
      decide
  · next x hx1 hx2 hx3 hx4 hx5 hx6 hx7 hx8 hx9 hx10 hx11 hx12 hx13 hx14 hx15
        hx16 hx17 hx18 hx19 hx20 =>
      split at he
      · next hdig =>
          have hnum : (Scanner.number ((s.advance).2)).errors =
              ((s.advance).2).errors := by
            refine number_errors ?_ ?_ ?_ ?_
            · exact hrb
            · show s.start + 1 = s.current + 1
              rw [hstart]
            · show s.current + 1 ≤ s.source.length
              omega
            · show isDigit (s.source.getD s.start (Char.ofNat 0)) = true
              rw [hstart]
              exact hdig
          rw [hnum] at he
          exact Or.inl he
      · split at he
        · rw [identifier_errors] at he
          exact Or.inl he
        · simp [Scanner.reportError] at he
          rcases he with h | h
          · exact Or.inl h
          · right
            rw [h]
            simp

theorem scanLoop_no_invalidnum : ∀ (fuel : Nat) (s : Scanner),
    digitRunsBounded s.source 308 →
    (∀ e ∈ s.errors, e.2 ≠ LexError.invalidNumberLiteral) →
    ∀ e ∈ (scanTokensLoopF fuel s).errors, e.2 ≠ LexError.invalidNumberLiteral
  | 0, _, _, hinv => hinv
  | fuel + 1, s, hrb, hinv => by
      unfold scanTokensLoopF
      split
      · next hne =>
          have hend : s.isAtEnd = false := by
            cases he : s.isAtEnd
            · rfl
            · simp [he] at hne
          have hlt : s.current < s.source.length :=
            (isAtEnd_eq_false_iff s).mp hend
          have hend2 : ({ s with start := s.current } : Scanner).isAtEnd = false :=
            hend
          have hsrc : (Scanner.scanToken { s with start := s.current }).source =
              s.source := (@extends_scanToken { s with start := s.current } hend2).1
          apply scanLoop_no_invalidnum fuel
          · rw [hsrc]
            exact hrb
          · intro e he
            rcases @scanToken_errors_kind { s with start := s.current } hrb rfl
                hlt e he with h | h
            · exact hinv e h
            · exact h
      · exact hinv

theorem digitRunsBounded_of_length_le (l : List Char) (n : Nat)
    (h : l.length ≤ n) : digitRunsBounded l n := by
  intro i
  have h1 : (((l.drop i).takeWhile isDigit)).length ≤ (l.drop i).length :=
    (List.takeWhile_prefix _).length_le
  have h2 : (l.drop i).length = l.length - i := List.length_drop i l
  omega

/-- C7 counterexample: the InvalidNumberLiteral error IS reachable.  On the
310-digit literal 1 followed by 309 zeros (decimal value 10^309, above the
float64 overflow threshold 2^1024 - 2^970, so Go's strconv.ParseFloat
returns ErrRange), the scan reports exactly one InvalidNumberLiteral error
and emits no NUMBER token — only the EOF token. -/
theorem C7_counterexample :
    (scan ('1' :: List.replicate 309 '0')).errors =
      [(1, LexError.invalidNumberLiteral)] ∧
    (scan ('1' :: List.replicate 309 '0')).tokens =
      [{ tokenType := TokenType.EOF, lexeme := [], literal := Literal.nil,
         line := 1 }] := by
  constructor
  · decide
  · decide

/-- C7 (corrected): the claim that InvalidNumberLiteral is never reported is
false — see the counterexample above.  The amended claim: whenever every run
of consecutive decimal digits in the input is at most 308 characters long,
the matched number text always decodes as a finite 64-bit float, so the
defensive parse-failure branch in number is unreachable and no
InvalidNumberLiteral error is ever reported. -/
theorem C7_invalid_number_unreachable (src : List Char)
    (hrb : digitRunsBounded src 308) :
    ∀ e ∈ (scan src).errors, e.2 ≠ LexError.invalidNumberLiteral := by
  intro e he
  have h1 : (scan src).errors =
      (scanTokensLoopF (src.length + 1) (NewScanner src)).errors := rfl
  rw [h1] at he
  refine scanLoop_no_invalidnum (src.length + 1) (NewScanner src) hrb ?_ e he
  intro e2 h2
  exact absurd h2 (List.not_mem_nil e2)

theorem C7_invalid_number_unreachable_witness :
    digitRunsBounded ("1 + 2.5".data) 308 ∧
    ∀ e ∈ (scan ("1 + 2.5".data)).errors, e.2 ≠ LexError.invalidNumberLiteral :=
  ⟨digitRunsBounded_of_length_le _ _ (by decide),
   C7_invalid_number_unreachable ("1 + 2.5".data)
     (digitRunsBounded_of_length_le _ _ (by decide))⟩
